import Mathlib

/-!
# Verification of the csd-cpp codec and repeat finder

Shallow embedding of the Canonical Signed Digit (CSD) codec from
`source/csd.cpp` / `include/csd/csd.hpp` and of the longest repeated
non-overlapping substring routine from `source/lcsre.cpp`.

Modelling conventions:
* C++ `double` values are modelled as exact rationals (`ℚ`); the spec's
  properties are about the idealized real arithmetic of the algorithms.
* C++ `int` is modelled as `ℤ`; `uint32_t` as `ℕ` reduced mod `2^32` at the
  conversion site.  Where a claim's truth depends on staying inside the
  overflow-free range, the theorem carries the corresponding bound.
* C++ strings are `List Char`; a `const char *` cursor that is advanced is
  modelled by returning the remaining list.
* `throw std::invalid_argument` is modelled by `Except CsdError`, with one
  error constructor per distinct message in the source.
-/

namespace csd

/-- The two `std::invalid_argument` messages thrown by the decoders in
`include/csd/csd.hpp`: `integralInvalid` stands for
"Work with 0, +, -, and . only" and `fractionalInvalid` for
"Fractional part work with 0, +, and - only". -/
inductive CsdError where
  | integralInvalid : CsdError
  | fractionalInvalid : CsdError
deriving DecidableEq

/-- Loop body of `to_decimal_integral` (csd.hpp lines 258-277): double-and-add
over the integral digits, stopping at `'.'` (left in the remainder) or at the
end of the string, failing on any other character. -/
def integralLoop (decimal_value : ℤ) : List Char → Except CsdError (ℤ × List Char)
  | [] => .ok (decimal_value, [])
  | c :: cs =>
    if c = '0' then integralLoop (2 * decimal_value) cs
    else if c = '+' then integralLoop (2 * decimal_value + 1) cs
    else if c = '-' then integralLoop (2 * decimal_value - 1) cs
    else if c = '.' then .ok (decimal_value, c :: cs)
    else .error .integralInvalid

/-- Model of `csd::to_decimal_integral` (csd.hpp lines 258-277): value of the integral
part together with the advanced cursor. -/
def to_decimal_integral (csd : List Char) : Except CsdError (ℤ × List Char) :=
  integralLoop 0 csd

/-- Loop body of `to_decimal_fractional` (csd.hpp lines 288-308): halving scale,
adding or subtracting `scale` per digit; the scale is halved after every
processed digit, including `'0'`. -/
def fractionalLoop (decimal_value scale : ℚ) : List Char → Except CsdError ℚ
  | [] => .ok decimal_value
  | c :: cs =>
    if c = '0' then fractionalLoop decimal_value (scale / 2) cs
    else if c = '+' then fractionalLoop (decimal_value + scale) (scale / 2) cs
    else if c = '-' then fractionalLoop (decimal_value - scale) (scale / 2) cs
    else .error .fractionalInvalid

/-- Model of `csd::to_decimal_fractional` (csd.hpp lines 288-308): called with the cursor
on the `'.'`, which the initial `++csd` skips. -/
def to_decimal_fractional (csd : List Char) : Except CsdError ℚ :=
  fractionalLoop 0 (1/2) (csd.drop 1)

/-- Model of `csd::to_decimal` (csd.hpp lines 328-337); a thrown exception propagates,
modelled by the explicit error matches. -/
def to_decimal (csd : List Char) : Except CsdError ℚ :=
  match to_decimal_integral csd with
  | .error e => .error e
  | .ok (integral, rest) =>
    match rest with
    | [] => .ok (integral : ℚ)
    | _ =>
      match to_decimal_fractional rest with
      | .error e => .error e
      | .ok fractional => .ok ((integral : ℚ) + fractional)

/-- Model of `csd::to_decimal_i` (csd.hpp line 367): the integral value only. -/
def to_decimal_i (csd : List Char) : Except CsdError ℤ :=
  match to_decimal_integral csd with
  | .error e => .error e
  | .ok p => .ok p.1

/-- Integral loop of `csd::to_decimal_using_switch` (csd.hpp lines 191-236);
the accumulator is a C++ `double`, modelled as `ℚ`. -/
def switchIntegralLoop (decimal_value : ℚ) : List Char → Except CsdError (ℚ × List Char)
  | [] => .ok (decimal_value, [])
  | c :: cs =>
    if c = '0' then switchIntegralLoop (decimal_value * 2) cs
    else if c = '+' then switchIntegralLoop (2 * decimal_value + 1) cs
    else if c = '-' then switchIntegralLoop (2 * decimal_value - 1) cs
    else if c = '.' then .ok (decimal_value, c :: cs)
    else .error .integralInvalid

/-- Fractional loop of `csd::to_decimal_using_switch` (csd.hpp lines 216-234). -/
def switchFractionalLoop (decimal_value scale : ℚ) : List Char → Except CsdError ℚ
  | [] => .ok decimal_value
  | c :: cs =>
    if c = '0' then switchFractionalLoop decimal_value (scale / 2) cs
    else if c = '+' then switchFractionalLoop (decimal_value + scale) (scale / 2) cs
    else if c = '-' then switchFractionalLoop (decimal_value - scale) (scale / 2) cs
    else .error .fractionalInvalid

/-- Model of `csd::to_decimal_using_switch` (csd.hpp lines 191-236). -/
def to_decimal_using_switch (csd : List Char) : Except CsdError ℚ :=
  match switchIntegralLoop 0 csd with
  | .error e => .error e
  | .ok (decimal_value, rest) =>
    match rest with
    | [] => .ok decimal_value
    | _ => switchFractionalLoop decimal_value (1/2) (rest.drop 1)

/-! ## Encoders (source/csd.cpp) -/

/-- One pass of the digit loop `loop_fn` in `csd::to_csd` (csd.cpp lines
123-139), run for a fixed number of iterations (the C++ loop runs while
`rem > value`, decrementing `rem` once per iteration, so the iteration count
is determined up front).  Per iteration the running power `p2n` is halved,
then `det = 1.5 * decimal_value` is compared against it.  Returns the digits
emitted together with the final residual value. -/
def csdLoop (decimal_value p2n : ℚ) : ℕ → List Char × ℚ
  | 0 => ([], decimal_value)
  | n + 1 =>
    let p2 := p2n / 2
    let det := 3/2 * decimal_value
    if p2 < det then
      let r := csdLoop (decimal_value - p2) p2 n
      ('+' :: r.1, r.2)
    else if det < -p2 then
      let r := csdLoop (decimal_value + p2) p2 n
      ('-' :: r.1, r.2)
    else
      let r := csdLoop decimal_value p2 n
      ('0' :: r.1, r.2)

/-- Model of `csd::to_csd` (csd.cpp lines 113-146).  `int(ceil(log2(absnum * 1.5)))`
is the least integer `rem` with `absnum * 1.5 ≤ 2 ^ rem`, i.e.
`Int.clog 2 (absnum * 3/2)`.  The integral loop runs `rem` times (`rem ≥ 1`
when `1 ≤ absnum`, else `rem = 0`), after which the running power is
`2 ^ rem / 2 ^ rem = 1`; then `'.'` is appended unconditionally and the
fractional loop runs `places` more times.  When `absnum < 1` the initial
string is `"0"`. -/
def to_csd (decimal_value : ℚ) (places : ℕ) : List Char :=
  let absnum := |decimal_value|
  let rem : ℤ := if 1 ≤ absnum then Int.clog 2 (absnum * (3/2)) else 0
  let head : List Char := if 1 ≤ absnum then [] else ['0']
  let r1 := csdLoop decimal_value (2 ^ rem) rem.toNat
  let r2 := csdLoop r1.2 1 places
  head ++ r1.1 ++ '.' :: r2.1

/-- Model of `highest_power_of_two_in` (csd.cpp lines 70-77): bit-smear then shift on a
`uint32_t`.  All intermediate results stay below `2 ^ 32` because the input
does. -/
def highest_power_of_two_in (x : ℕ) : ℕ :=
  let x1 := x ||| (x >>> 1)
  let x2 := x1 ||| (x1 >>> 2)
  let x3 := x2 ||| (x2 >>> 4)
  let x4 := x3 ||| (x3 >>> 8)
  let x5 := x4 ||| (x4 >>> 16)
  x5 ^^^ (x5 >>> 1)

/-- The `while (p2n > 1)` loop of `csd::to_csd_i` (csd.cpp lines 185-198):
compare `det = 3 * decimal_value` against the current power `p2n`, emit a
digit, adjust by `p2n / 2` and halve. -/
def csdILoop (decimal_value : ℤ) (p2n : ℕ) : List Char :=
  if 1 < p2n then
    if (p2n : ℤ) < 3 * decimal_value then
      '+' :: csdILoop (decimal_value - p2n / 2) (p2n / 2)
    else if 3 * decimal_value < -(p2n : ℤ) then
      '-' :: csdILoop (decimal_value + p2n / 2) (p2n / 2)
    else
      '0' :: csdILoop decimal_value (p2n / 2)
  else []
termination_by p2n
decreasing_by all_goals exact Nat.div_lt_self (by omega) (by omega)

/-- Model of `csd::to_csd_i` (csd.cpp lines 176-201).  The `uint32_t` conversion of the
C++ `int` expression `abs(decimal_value) * 3 / 2` is modelled by reducing the
exact value mod `2 ^ 32`. -/
def to_csd_i (decimal_value : ℤ) : List Char :=
  if decimal_value = 0 then ['0']
  else
    csdILoop decimal_value
      (highest_power_of_two_in ((decimal_value.natAbs * 3 / 2) % 4294967296) * 2)

/-- The literal `1e-100` used in the loop condition of `csd::to_csdnnz`
(csd.cpp line 242). -/
def EPS : ℚ := 1 / 10 ^ 100

/-- Decrement of the C++ `unsigned int nnz`: wraps around to `2 ^ 32 - 1` at
zero. -/
def wrapDec (nnz : ℕ) : ℕ := if nnz = 0 then 4294967295 else nnz - 1

/-- The main loop of `csd::to_csdnnz` (csd.cpp lines 242-265), with an
explicit fuel parameter for termination (the callers in `to_csdnnz` pass
enough fuel for the C++ loop condition to become false first: once `rem ≤ 0`
the residual is at most `2 ^ rem⁻`-small and keeps halving, so it drops below
`EPS` after at most 333 further iterations, and fuel `rem.toNat + nnz + 400`
is never exhausted).  Per iteration: emit `'.'` when `rem` is `0`, halve
`p2n`, decrement `rem`, compare `det = 1.5 * decimal_value`, and zero the
residual once the (wrapping) nonzero budget reaches `0`. -/
def csdnnzLoop (decimal_value p2n : ℚ) (rem : ℤ) (nnz : ℕ) : ℕ → List Char
  | 0 => []
  | fuel + 1 =>
    if 0 < rem ∨ (0 < nnz ∧ EPS < |decimal_value|) then
      (if rem = 0 then ['.'] else []) ++
      (if p2n / 2 < 3/2 * decimal_value then
        '+' :: csdnnzLoop (if wrapDec nnz = 0 then 0 else decimal_value - p2n / 2)
          (p2n / 2) (rem - 1) (wrapDec nnz) fuel
      else if 3/2 * decimal_value < -(p2n / 2) then
        '-' :: csdnnzLoop (if wrapDec nnz = 0 then 0 else decimal_value + p2n / 2)
          (p2n / 2) (rem - 1) (wrapDec nnz) fuel
      else
        '0' :: csdnnzLoop (if nnz = 0 then 0 else decimal_value)
          (p2n / 2) (rem - 1) nnz fuel)
    else []

/-- Model of `csd::to_csdnnz` (csd.cpp lines 229-268). -/
def to_csdnnz (decimal_value : ℚ) (nnz : ℕ) : List Char :=
  let absnum := |decimal_value|
  let rem : ℤ := if 1 ≤ absnum then Int.clog 2 (absnum * (3/2)) else 0
  let head : List Char := if 1 ≤ absnum then [] else ['0']
  head ++ csdnnzLoop decimal_value (2 ^ rem) rem nnz (rem.toNat + nnz + 400)

/-- The `while (p2n > 1)` loop of `csd::to_csdnnz_i` (csd.cpp lines 305-323):
like `csdILoop` but decrementing the wrapping nonzero budget and zeroing the
residual once it reaches `0`. -/
def csdnnzILoop (decimal_value : ℤ) (p2n : ℕ) (nnz : ℕ) : List Char :=
  if 1 < p2n then
    if (p2n : ℤ) < 3 * decimal_value then
      '+' :: csdnnzILoop (if wrapDec nnz = 0 then 0 else decimal_value - p2n / 2)
        (p2n / 2) (wrapDec nnz)
    else if 3 * decimal_value < -(p2n : ℤ) then
      '-' :: csdnnzILoop (if wrapDec nnz = 0 then 0 else decimal_value + p2n / 2)
        (p2n / 2) (wrapDec nnz)
    else
      '0' :: csdnnzILoop (if nnz = 0 then 0 else decimal_value) (p2n / 2) nnz
  else []
termination_by p2n
decreasing_by all_goals exact Nat.div_lt_self (by omega) (by omega)

/-- Model of `csd::to_csdnnz_i` (csd.cpp lines 296-326). -/
def to_csdnnz_i (decimal_value : ℤ) (nnz : ℕ) : List Char :=
  if decimal_value = 0 then ['0']
  else
    csdnnzILoop decimal_value
      (highest_power_of_two_in ((decimal_value.natAbs * 3 / 2) % 4294967296) * 2) nnz

/-! ## Repeat finder (source/lcsre.cpp) -/

/-- The DP table of `csd::longest_repeated_substring` (lcsre.cpp lines 88-101):
`lcsre s i j` is the value stored at `lcsre[i % 2][j]` while processing row
`i` (the rolling two-row buffer of the C++ code always holds exactly the
previous row's values at the positions read, so the recurrence is the whole
content of the table).  Indices are 1-based as in the source; `sv[i-1]` and
`sv[j-1]` become `s.getD (i-1)` / `s.getD (j-1)`. -/
def lcsre (s : List Char) : ℕ → ℕ → ℕ
  | _, 0 => 0
  | 0, _ + 1 => 0
  | i + 1, j + 1 =>
    if s.getD i ' ' = s.getD j ' ' ∧ lcsre s i j < j - i then lcsre s i j + 1
    else 0

/-- The visit order of the two nested loops in
`csd::longest_repeated_substring` (lcsre.cpp lines 84-85): `i` from `1` to
`n`, and for each `i`, `j` from `i + 1` to `n`. -/
def lcsrePairs (n : ℕ) : List (ℕ × ℕ) :=
  (List.range' 1 n).flatMap fun i => (List.range' (i + 1) (n - i)).map fun j => (i, j)

/-- The update of `(res_length, index)` performed for each visited pair
(lcsre.cpp lines 94-99).  In the C++ code the update is guarded by the same
condition as the table assignment, but in the `else` branch the stored value
is `0`, which can never exceed `res_length`, so comparing the table value
directly is equivalent. -/
def lcsreStep (s : List Char) (st : ℕ × ℕ) (p : ℕ × ℕ) : ℕ × ℕ :=
  if st.1 < lcsre s p.1 p.2 then
    (lcsre s p.1 p.2, if st.2 < p.1 then p.1 else st.2)
  else st

/-- Model of `csd::longest_repeated_substring` (lcsre.cpp lines 76-119): scan all pairs
accumulating `(res_length, index)`, then cut `substr(index - res_length,
res_length)` out of the input if a repeat was found. -/
def longest_repeated_substring (s : List Char) : List Char :=
  let st := (lcsrePairs s.length).foldl (lcsreStep s) (0, 0)
  if 0 < st.1 then (s.drop (st.2 - st.1)).take st.1 else []

/-! ## Decoder lemmas -/

/-- Pure value of a run of integral digits under the double-and-add
recurrence of `to_decimal_integral`. -/
def digitsVal (acc : ℤ) : List Char → ℤ
  | [] => acc
  | c :: cs =>
    digitsVal (if c = '0' then 2 * acc else if c = '+' then 2 * acc + 1 else 2 * acc - 1) cs

theorem integralLoop_append {l : List Char} (rest : List Char) (acc : ℤ)
    (h : ∀ c ∈ l, c = '0' ∨ c = '+' ∨ c = '-') :
    integralLoop acc (l ++ rest) = integralLoop (digitsVal acc l) rest := by
  induction l generalizing acc with
  | nil => simp [digitsVal]
  | cons c cs ih =>
    rcases h c (by simp) with hc | hc | hc <;>
      subst hc <;>
      simp only [List.cons_append, integralLoop, digitsVal, if_pos rfl, reduceIte] <;>
      exact ih _ fun d hd => h d (by simp [hd])

theorem integralLoop_dot (acc : ℤ) (junk : List Char) :
    integralLoop acc ('.' :: junk) = .ok (acc, '.' :: junk) := by
  simp [integralLoop]

theorem integralLoop_nil (acc : ℤ) : integralLoop acc [] = .ok (acc, []) := rfl

/-- C8 helper: the `double` accumulator of `to_decimal_using_switch`'s
integral loop computes the cast of the `int` accumulator of
`to_decimal_integral`. -/
theorem switchIntegralLoop_eq (l : List Char) (acc : ℤ) :
    switchIntegralLoop (acc : ℚ) l =
      (integralLoop acc l).map fun p => ((p.1 : ℚ), p.2) := by
  induction l generalizing acc with
  | nil => simp [switchIntegralLoop, integralLoop, Except.map]
  | cons c cs ih =>
    by_cases h0 : c = '0'
    · subst h0
      simpa [switchIntegralLoop, integralLoop, mul_comm, Int.cast_mul] using ih (2 * acc)
    by_cases h1 : c = '+'
    · subst h1
      have h := ih (2 * acc + 1)
      push_cast at h
      simpa [switchIntegralLoop, integralLoop, h0] using h
    by_cases h2 : c = '-'
    · subst h2
      have h := ih (2 * acc - 1)
      push_cast at h
      simpa [switchIntegralLoop, integralLoop, h0, h1] using h
    by_cases h3 : c = '.'
    · subst h3; simp [switchIntegralLoop, integralLoop, Except.map]
    · simp [switchIntegralLoop, integralLoop, h0, h1, h2, h3, Except.map]

/-- C8 helper: the two fractional loops are the same function. -/
theorem switchFractionalLoop_eq (l : List Char) (dv s : ℚ) :
    switchFractionalLoop dv s l = fractionalLoop dv s l := by
  induction l generalizing dv s with
  | nil => rfl
  | cons c cs ih => by_cases h0 : c = '0' <;> by_cases h1 : c = '+' <;> by_cases h2 : c = '-' <;>
      simp [switchFractionalLoop, fractionalLoop, h0, h1, h2, ih]

/-- Accumulator-offset property of the fractional loop. -/
theorem fractionalLoop_shift (l : List Char) (a b s : ℚ) :
    fractionalLoop (a + b) s l = (fractionalLoop b s l).map (a + ·) := by
  induction l generalizing b s with
  | nil => simp [fractionalLoop, Except.map]
  | cons c cs ih =>
    by_cases h0 : c = '0'
    · subst h0; simpa [fractionalLoop] using ih b (s / 2)
    by_cases h1 : c = '+'
    · subst h1
      simpa [fractionalLoop, h0, add_assoc] using ih (b + s) (s / 2)
    by_cases h2 : c = '-'
    · subst h2
      simpa [fractionalLoop, h0, h1, add_sub_assoc] using ih (b - s) (s / 2)
    · simp [fractionalLoop, h0, h1, h2, Except.map]

/-- C8: the branching-chain decoder and the dispatch-style decoder agree on
every input: same value on success, same error on failure.  (The `double`
integral accumulator of the switch form and the `int` accumulator of the
canonical form are both modelled exactly.) -/
theorem decoder_implementations_agree (l : List Char) :
    to_decimal_using_switch l = to_decimal l := by
  unfold to_decimal_using_switch to_decimal to_decimal_integral to_decimal_fractional
  rw [show ((0 : ℚ) = ((0 : ℤ) : ℚ)) by norm_num, switchIntegralLoop_eq]
  cases h : integralLoop 0 l with
  | error e => simp [Except.map]
  | ok p =>
    obtain ⟨v, rest⟩ := p
    cases rest with
    | nil => simp [Except.map]
    | cons r rs =>
      simp only [Except.map, List.drop_succ_cons, List.drop_zero]
      rw [switchFractionalLoop_eq]
      have hs := fractionalLoop_shift rs (v : ℚ) 0 (1/2)
      rw [add_zero] at hs
      rw [hs]
      cases fractionalLoop 0 (1/2) rs <;> simp [Except.map]

/-- C10: the integer decoder never looks past the separator: for any string
whose integral part is over `{0,+,-}`, `to_decimal_i` returns the integral
value no matter what follows the `'.'`. -/
theorem to_decimal_i_ignores_fraction (l junk : List Char)
    (h : ∀ c ∈ l, c = '0' ∨ c = '+' ∨ c = '-') :
    to_decimal_i (l ++ '.' :: junk) = .ok (digitsVal 0 l) := by
  unfold to_decimal_i to_decimal_integral
  rw [integralLoop_append _ 0 h, integralLoop_dot]

/-- Witness for C10 at the spec's example shape: `to_decimal_i "+0.XYZ"`
succeeds with value `2` although the fractional part is garbage. -/
theorem to_decimal_i_ignores_fraction_witness :
    to_decimal_i ['+', '0', '.', 'X', 'Y', 'Z'] = .ok 2 := by
  have h := to_decimal_i_ignores_fraction ['+', '0'] ['X', 'Y', 'Z'] (by decide)
  simpa [digitsVal] using h

/-! ## C5: which strings the real decoder accepts -/

theorem integralLoop_ok (l : List Char) (acc : ℤ)
    (h : ∀ c ∈ l.takeWhile (· != '.'), c = '0' ∨ c = '+' ∨ c = '-') :
    integralLoop acc l =
      .ok (digitsVal acc (l.takeWhile (· != '.')), l.dropWhile (· != '.')) := by
  induction l generalizing acc with
  | nil => simp [integralLoop, digitsVal]
  | cons c cs ih =>
    by_cases hdot : c = '.'
    · subst hdot
      simp [integralLoop, List.takeWhile_cons, List.dropWhile_cons, digitsVal]
    · have hc : c = '0' ∨ c = '+' ∨ c = '-' := by
        refine h c ?_
        simp [List.takeWhile_cons, hdot]
      have htail : ∀ d ∈ cs.takeWhile (· != '.'), d = '0' ∨ d = '+' ∨ d = '-' := by
        intro d hd
        refine h d ?_
        simp [List.takeWhile_cons, hdot, hd]
      rcases hc with hc | hc | hc <;> subst hc <;>
        simp [integralLoop, List.takeWhile_cons, List.dropWhile_cons, digitsVal, ih _ htail]

theorem integralLoop_err (l : List Char) (acc : ℤ)
    (h : ¬ ∀ c ∈ l.takeWhile (· != '.'), c = '0' ∨ c = '+' ∨ c = '-') :
    integralLoop acc l = .error .integralInvalid := by
  induction l generalizing acc with
  | nil => exact absurd (by simp) h
  | cons c cs ih =>
    by_cases hdot : c = '.'
    · subst hdot
      exact absurd (by simp [List.takeWhile_cons]) h
    · have step : (c = '0' ∨ c = '+' ∨ c = '-') →
          ¬ ∀ d ∈ cs.takeWhile (· != '.'), d = '0' ∨ d = '+' ∨ d = '-' := by
        intro hcgood hcs
        apply h
        intro d hd
        rw [List.takeWhile_cons, if_pos (by simpa using hdot)] at hd
        rcases List.mem_cons.1 hd with h | h
        · subst h; exact hcgood
        · exact hcs d h
      by_cases h0 : c = '0'
      · subst h0
        simpa [integralLoop] using ih (2 * acc) (step (.inl rfl))
      by_cases h1 : c = '+'
      · subst h1
        simpa [integralLoop, h0] using ih (2 * acc + 1) (step (.inr (.inl rfl)))
      by_cases h2 : c = '-'
      · subst h2
        simpa [integralLoop, h0, h1] using ih (2 * acc - 1) (step (.inr (.inr rfl)))
      · simp [integralLoop, h0, h1, h2, hdot]

theorem fractionalLoop_ok (l : List Char) (dv s : ℚ)
    (h : ∀ c ∈ l, c = '0' ∨ c = '+' ∨ c = '-') :
    ∃ q, fractionalLoop dv s l = .ok q := by
  induction l generalizing dv s with
  | nil => exact ⟨dv, rfl⟩
  | cons c cs ih =>
    have htail : ∀ d ∈ cs, d = '0' ∨ d = '+' ∨ d = '-' := fun d hd => h d (by simp [hd])
    rcases h c (by simp) with hc | hc | hc <;> subst hc <;>
      simpa [fractionalLoop] using ih _ _ htail

theorem fractionalLoop_err (l : List Char) (dv s : ℚ)
    (h : ¬ ∀ c ∈ l, c = '0' ∨ c = '+' ∨ c = '-') :
    fractionalLoop dv s l = .error .fractionalInvalid := by
  induction l generalizing dv s with
  | nil => exact absurd (by simp) h
  | cons c cs ih =>
    have step : (c = '0' ∨ c = '+' ∨ c = '-') →
        ¬ ∀ d ∈ cs, d = '0' ∨ d = '+' ∨ d = '-' := by
      intro hcgood hcs
      apply h
      intro d hd
      rcases List.mem_cons.1 hd with h | h
      · subst h; exact hcgood
      · exact hcs d h
    by_cases h0 : c = '0'
    · subst h0
      simpa [fractionalLoop] using ih _ _ (step (.inl rfl))
    by_cases h1 : c = '+'
    · subst h1
      simpa [fractionalLoop, h0] using ih _ _ (step (.inr (.inl rfl)))
    by_cases h2 : c = '-'
    · subst h2
      simpa [fractionalLoop, h0, h1] using ih _ _ (step (.inr (.inr rfl)))
    · simp [fractionalLoop, h0, h1, h2]

theorem dropWhile_dot (l : List Char) :
    l.dropWhile (· != '.') = [] ∨ ∃ t, l.dropWhile (· != '.') = '.' :: t := by
  induction l with
  | nil => exact .inl rfl
  | cons c cs ih =>
    by_cases hdot : c = '.'
    · subst hdot; exact .inr ⟨cs, by simp [List.dropWhile_cons]⟩
    · simpa [List.dropWhile_cons, hdot] using ih

/-- Evaluation of `to_decimal` on strings with a bad integral part. -/
theorem to_decimal_err_integral (l : List Char)
    (h : ¬ ∀ c ∈ l.takeWhile (· != '.'), c = '0' ∨ c = '+' ∨ c = '-') :
    to_decimal l = .error .integralInvalid := by
  unfold to_decimal to_decimal_integral
  rw [integralLoop_err l 0 h]

/-- Evaluation of `to_decimal` on strings with no separator. -/
theorem to_decimal_ok_nodot (l : List Char)
    (hpre : ∀ c ∈ l.takeWhile (· != '.'), c = '0' ∨ c = '+' ∨ c = '-')
    (hd : l.dropWhile (· != '.') = []) :
    to_decimal l = .ok ((digitsVal 0 (l.takeWhile (· != '.')) : ℤ) : ℚ) := by
  unfold to_decimal to_decimal_integral
  rw [integralLoop_ok l 0 hpre, hd]

/-- Evaluation of `to_decimal` on strings with a separator and a bad
fractional part. -/
theorem to_decimal_err_fractional (l : List Char) (t : List Char)
    (hpre : ∀ c ∈ l.takeWhile (· != '.'), c = '0' ∨ c = '+' ∨ c = '-')
    (hd : l.dropWhile (· != '.') = '.' :: t)
    (ht : ¬ ∀ c ∈ t, c = '0' ∨ c = '+' ∨ c = '-') :
    to_decimal l = .error .fractionalInvalid := by
  unfold to_decimal to_decimal_integral
  rw [integralLoop_ok l 0 hpre, hd]
  simp only [to_decimal_fractional, List.drop_succ_cons, List.drop_zero]
  rw [fractionalLoop_err t 0 (1/2) ht]

/-- Evaluation of `to_decimal` on strings with a separator and a good
fractional part. -/
theorem to_decimal_ok_dot (l : List Char) (t : List Char) (q : ℚ)
    (hpre : ∀ c ∈ l.takeWhile (· != '.'), c = '0' ∨ c = '+' ∨ c = '-')
    (hd : l.dropWhile (· != '.') = '.' :: t)
    (hq : fractionalLoop 0 (1/2) t = .ok q) :
    to_decimal l = .ok ((digitsVal 0 (l.takeWhile (· != '.')) : ℤ) + q) := by
  unfold to_decimal to_decimal_integral
  rw [integralLoop_ok l 0 hpre, hd]
  simp only [to_decimal_fractional, List.drop_succ_cons, List.drop_zero]
  rw [hq]

/-- C5 (amended): `to_decimal` succeeds exactly on the strings over
`{0,+,-,.}` containing at most one `'.'`; on all other inputs it fails with
one of the two invalid-format errors and, the result being an `Except`,
returns no partial value. -/
theorem to_decimal_ok_iff_valid (l : List Char) :
    (∃ q, to_decimal l = Except.ok q) ↔
      ((∀ c ∈ l, c = '0' ∨ c = '+' ∨ c = '-' ∨ c = '.') ∧ l.count '.' ≤ 1) := by
  have hsplit : l.takeWhile (· != '.') ++ l.dropWhile (· != '.') = l :=
    List.takeWhile_append_dropWhile (fun c => c != '.') l
  have hpredot : ∀ c ∈ l.takeWhile (· != '.'), c ≠ '.' := by
    intro c hc
    simpa using List.mem_takeWhile_imp hc
  have hprecount : (l.takeWhile (· != '.')).count '.' = 0 := by
    rw [List.count_eq_zero]
    intro hmem
    exact hpredot '.' hmem rfl
  constructor
  · rintro ⟨q, hq⟩
    by_cases hpre : ∀ c ∈ l.takeWhile (· != '.'), c = '0' ∨ c = '+' ∨ c = '-'
    swap
    · rw [to_decimal_err_integral l hpre] at hq
      exact absurd hq (by simp)
    rcases dropWhile_dot l with hd | ⟨t, hd⟩
    · rw [hd, List.append_nil] at hsplit
      refine ⟨fun c hc => ?_, ?_⟩
      · rcases hpre c (by rw [hsplit]; exact hc) with h | h | h
        · exact .inl h
        · exact .inr (.inl h)
        · exact .inr (.inr (.inl h))
      · rw [← hsplit]
        omega
    · by_cases ht : ∀ c ∈ t, c = '0' ∨ c = '+' ∨ c = '-'
      swap
      · rw [to_decimal_err_fractional l t hpre hd ht] at hq
        exact absurd hq (by simp)
      have htdot : ∀ c ∈ t, c ≠ '.' := by
        intro c hc heq
        subst heq
        rcases ht '.' hc with h | h | h <;> simp at h
      have htcount : t.count '.' = 0 := by
        rw [List.count_eq_zero]
        intro hmem
        exact htdot '.' hmem rfl
      refine ⟨fun c hc => ?_, ?_⟩
      · rw [← hsplit, hd] at hc
        rcases List.mem_append.1 hc with h | h
        · rcases hpre c h with h | h | h
          · exact .inl h
          · exact .inr (.inl h)
          · exact .inr (.inr (.inl h))
        · rcases List.mem_cons.1 h with h | h
          · exact .inr (.inr (.inr h))
          · rcases ht c h with h | h | h
            · exact .inl h
            · exact .inr (.inl h)
            · exact .inr (.inr (.inl h))
      · rw [← hsplit, hd, List.count_append, List.count_cons]
        simp [hprecount, htcount]
  · rintro ⟨hA, hC⟩
    have hpre : ∀ c ∈ l.takeWhile (· != '.'), c = '0' ∨ c = '+' ∨ c = '-' := by
      intro c hc
      have hne : c ≠ '.' := hpredot c hc
      have hmem : c ∈ l := (List.takeWhile_sublist (· != '.')).subset hc
      rcases hA c hmem with h | h | h | h
      · exact .inl h
      · exact .inr (.inl h)
      · exact .inr (.inr h)
      · exact absurd h hne
    rcases dropWhile_dot l with hd | ⟨t, hd⟩
    · exact ⟨_, to_decimal_ok_nodot l hpre hd⟩
    · have htcount : t.count '.' = 0 := by
        rw [← hsplit, hd, List.count_append, List.count_cons] at hC
        simp [hprecount] at hC
        omega
      have ht : ∀ c ∈ t, c = '0' ∨ c = '+' ∨ c = '-' := by
        intro c hc
        have hmem : c ∈ l := by
          rw [← hsplit, hd]
          exact List.mem_append.2 (.inr (List.mem_cons.2 (.inr hc)))
        have hne : c ≠ '.' := by
          intro heq
          subst heq
          rw [List.count_eq_zero] at htcount
          exact htcount hc
        rcases hA c hmem with h | h | h | h
        · exact .inl h
        · exact .inr (.inl h)
        · exact .inr (.inr h)
        · exact absurd h hne
      obtain ⟨q, hq⟩ := fractionalLoop_ok t 0 (1/2) ht
      exact ⟨_, to_decimal_ok_dot l t q hpre hd hq⟩

/-- C5 counterexample: `"0.0.0"` is a string over the alphabet `{0,+,-,.}`
on which `to_decimal` nevertheless fails (the second `'.'` is rejected by the
fractional loop), contradicting the claim that decoding succeeds on every
string over the valid alphabet. -/
theorem to_decimal_double_dot_cex :
    (∀ c ∈ ['0', '.', '0', '.', '0'], c = '0' ∨ c = '+' ∨ c = '-' ∨ c = '.') ∧
      to_decimal ['0', '.', '0', '.', '0'] = .error .fractionalInvalid := by
  refine ⟨by decide, to_decimal_err_fractional _ ['0', '.', '0'] (by decide) (by decide) ?_⟩
  intro h
  rcases h '.' (by simp) with h | h | h <;> simp at h

/-! ## C6 / C7: shape of the encoder output for zero and small values -/

theorem csdLoop_zero (n : ℕ) (p : ℚ) (hp : 0 < p) :
    csdLoop 0 p n = (List.replicate n '0', 0) := by
  induction n generalizing p with
  | zero => rfl
  | succ n ih =>
    have h1 : ¬ p / 2 < 0 := not_lt.2 (by positivity)
    simp [csdLoop, h1, ih (p / 2) (by positivity), List.replicate_succ]

/-- C6 (amended): the integer encoder sends `0` to the single symbol `"0"`,
but the real encoder sends `0` to `"0."` followed by `places` zero digits —
the zero check present in an earlier revision of `to_csd` is absent from the
current one (and the current test suite expects `"0.00"`). -/
theorem zero_encoding (places : ℕ) :
    to_csd 0 places = '0' :: '.' :: List.replicate places '0' ∧ to_csd_i 0 = ['0'] := by
  constructor
  · norm_num [to_csd, csdLoop_zero _ 1 one_pos, csdLoop]
  · rfl

/-- C6 counterexample: `to_csd 0 2` is `"0.00"`, not the single symbol
`"0"` required by the claim. -/
theorem to_csd_zero_not_single_zero_cex : to_csd 0 2 ≠ ['0'] := by
  have h : to_csd 0 2 = ['0', '.', '0', '0'] := by
    norm_num [to_csd, csdLoop_zero _ 1 one_pos, csdLoop]
  rw [h]
  decide

/-- C7 (amended): for `|v| < 1` (zero included) the encoder output starts
with the digit `'0'` immediately followed by the separator — not with the
separator itself: the C++ code initializes the result string to `"0"` in
this branch. -/
theorem small_value_leading_zero_dot (v : ℚ) (places : ℕ) (h : |v| < 1) :
    ∃ rest, to_csd v places = '0' :: '.' :: rest := by
  have habs : ¬ (1 : ℚ) ≤ |v| := not_le.2 h
  exact ⟨(csdLoop v 1 places).1, by simp [to_csd, habs, csdLoop]⟩

/-- Witness for C7's amended statement at `v = 1/2`, `places = 2`. -/
theorem small_value_leading_zero_dot_witness :
    ∃ rest, to_csd (1/2) 2 = '0' :: '.' :: rest :=
  small_value_leading_zero_dot (1/2) 2 (by rw [abs_lt]; constructor <;> norm_num)

/-- C7 counterexample: `1/2` is nonzero with `|1/2| < 1`, yet
`to_csd (1/2) 2 = "0.+0"` does not begin with the separator `'.'`. -/
theorem to_csd_fractional_head_cex :
    ((1:ℚ)/2 ≠ 0 ∧ |(1:ℚ)/2| < 1) ∧ (to_csd (1/2) 2).head? ≠ some '.' := by
  refine ⟨⟨by norm_num, by rw [abs_lt]; constructor <;> norm_num⟩, ?_⟩
  have h : to_csd (1/2) 2 = ['0', '.', '+', '0'] := by
    have habs : ¬ (1 : ℚ) ≤ |(1:ℚ)/2| := by
      rw [show |(1:ℚ)/2| = 1/2 from abs_of_nonneg (by norm_num)]
      norm_num
    norm_num [to_csd, habs, csdLoop]
  rw [h]
  decide

/-! ## C2: round-trip with bounded truncation error -/

theorem csdLoop_chars (n : ℕ) (v p : ℚ) :
    ∀ c ∈ (csdLoop v p n).1, c = '0' ∨ c = '+' ∨ c = '-' := by
  induction n generalizing v p with
  | zero => simp [csdLoop]
  | succ n ih =>
    intro c hc
    by_cases h1 : p / 2 < 3/2 * v
    · simp only [csdLoop, if_pos h1] at hc
      rcases List.mem_cons.1 hc with h | h
      · exact .inr (.inl h)
      · exact ih _ _ c h
    by_cases h2 : 3/2 * v < -(p / 2)
    · simp only [csdLoop, if_neg h1, if_pos h2] at hc
      rcases List.mem_cons.1 hc with h | h
      · exact .inr (.inr h)
      · exact ih _ _ c h
    · simp only [csdLoop, if_neg h1, if_neg h2] at hc
      rcases List.mem_cons.1 hc with h | h
      · exact .inl h
      · exact ih _ _ c h

theorem takeWhile_dot_append (l1 l2 : List Char) (h : ∀ c ∈ l1, c ≠ '.') :
    (l1 ++ '.' :: l2).takeWhile (· != '.') = l1 ∧
      (l1 ++ '.' :: l2).dropWhile (· != '.') = '.' :: l2 := by
  induction l1 with
  | nil => simp [List.takeWhile_cons, List.dropWhile_cons]
  | cons c cs ih =>
    have hc : (c != '.') = true := by simpa using h c (by simp)
    have htail := ih fun d hd => h d (by simp [hd])
    simp [List.takeWhile_cons, List.dropWhile_cons, hc, htail.1, htail.2]

/-- Integral-phase decode: running `csdLoop` with power `2 ^ n` for `n` steps
emits digits whose double-and-add value accounts exactly for the amount
subtracted from the running value. -/
theorem csdLoop_int_decode (n : ℕ) (v : ℚ) (acc : ℤ) :
    ((digitsVal acc (csdLoop v (2 ^ n) n).1 : ℤ) : ℚ) =
      2 ^ n * (acc : ℚ) + v - (csdLoop v (2 ^ n) n).2 := by
  induction n generalizing v acc with
  | zero => simp [csdLoop, digitsVal]
  | succ n ih =>
    have hp : ((2 : ℚ) ^ (n + 1)) / 2 = 2 ^ n := by
      rw [pow_succ]; ring
    simp only [csdLoop, hp]
    by_cases h1 : (2 : ℚ) ^ n < 3/2 * v
    · rw [if_pos h1]
      dsimp only
      rw [show digitsVal acc ('+' :: (csdLoop (v - 2 ^ n) (2 ^ n) n).1)
            = digitsVal (2 * acc + 1) ((csdLoop (v - 2 ^ n) (2 ^ n) n).1) from by
          simp [digitsVal]]
      rw [ih (v - 2 ^ n) (2 * acc + 1)]
      push_cast
      ring
    by_cases h2 : 3/2 * v < -((2 : ℚ) ^ n)
    · rw [if_neg h1, if_pos h2]
      dsimp only
      rw [show digitsVal acc ('-' :: (csdLoop (v + 2 ^ n) (2 ^ n) n).1)
            = digitsVal (2 * acc - 1) ((csdLoop (v + 2 ^ n) (2 ^ n) n).1) from by
          simp [digitsVal]]
      rw [ih (v + 2 ^ n) (2 * acc - 1)]
      push_cast
      ring
    · rw [if_neg h1, if_neg h2]
      dsimp only
      rw [show digitsVal acc ('0' :: (csdLoop v (2 ^ n) n).1)
            = digitsVal (2 * acc) ((csdLoop v (2 ^ n) n).1) from by
          simp [digitsVal]]
      rw [ih v (2 * acc)]
      push_cast
      ring

/-- Fractional-phase decode: feeding the digits of `csdLoop v p n` to the
fractional loop with initial scale `p / 2` adds exactly the amount the
encoder subtracted from `v`. -/
theorem csdLoop_frac_decode (n : ℕ) (v p acc : ℚ) :
    fractionalLoop acc (p / 2) (csdLoop v p n).1 =
      .ok (acc + (v - (csdLoop v p n).2)) := by
  induction n generalizing v p acc with
  | zero => simp [csdLoop, fractionalLoop]
  | succ n ih =>
    by_cases h1 : p / 2 < 3/2 * v
    · simp only [csdLoop, if_pos h1]
      rw [show fractionalLoop acc (p / 2) ('+' :: (csdLoop (v - p / 2) (p / 2) n).1)
            = fractionalLoop (acc + p / 2) (p / 2 / 2) ((csdLoop (v - p / 2) (p / 2) n).1)
          from by simp [fractionalLoop]]
      rw [ih (v - p / 2) (p / 2) (acc + p / 2)]
      congr 1
      ring
    by_cases h2 : 3/2 * v < -(p / 2)
    · simp only [csdLoop, if_neg h1, if_pos h2]
      rw [show fractionalLoop acc (p / 2) ('-' :: (csdLoop (v + p / 2) (p / 2) n).1)
            = fractionalLoop (acc - p / 2) (p / 2 / 2) ((csdLoop (v + p / 2) (p / 2) n).1)
          from by simp [fractionalLoop]]
      rw [ih (v + p / 2) (p / 2) (acc - p / 2)]
      congr 1
      ring
    · simp only [csdLoop, if_neg h1, if_neg h2]
      rw [show fractionalLoop acc (p / 2) ('0' :: (csdLoop v (p / 2) n).1)
            = fractionalLoop acc (p / 2 / 2) ((csdLoop v (p / 2) n).1)
          from by simp [fractionalLoop]]
      rw [ih v (p / 2) acc]

/-- Loop invariant: if the value fits in the current power window, the final
residual fits in the last window. -/
theorem csdLoop_residual (n : ℕ) (v p : ℚ) (hv : |v| ≤ p) :
    |(csdLoop v p n).2| ≤ p / 2 ^ n := by
  induction n generalizing v p with
  | zero => simpa [csdLoop] using hv
  | succ n ih =>
    have hp : 0 ≤ p := le_trans (abs_nonneg v) hv
    have hvle : v ≤ p := le_trans (le_abs_self v) hv
    have hvge : -p ≤ v := neg_le_of_abs_le hv
    have hstep : p / 2 / 2 ^ n = p / 2 ^ (n + 1) := by
      rw [pow_succ]; ring
    by_cases h1 : p / 2 < 3/2 * v
    · have hnew : |v - p / 2| ≤ p / 2 := by
        rw [abs_le]
        constructor <;> nlinarith
      simpa only [csdLoop, if_pos h1, hstep] using ih (v - p / 2) (p / 2) hnew
    by_cases h2 : 3/2 * v < -(p / 2)
    · have hnew : |v + p / 2| ≤ p / 2 := by
        rw [abs_le]
        constructor <;> nlinarith
      simpa only [csdLoop, if_neg h1, if_pos h2, hstep] using ih (v + p / 2) (p / 2) hnew
    · have hnew : |v| ≤ p / 2 := by
        rw [not_lt] at h1 h2
        rw [abs_le]
        constructor <;> nlinarith
      simpa only [csdLoop, if_neg h1, if_neg h2, hstep] using ih v (p / 2) hnew

/-- C2: exact-arithmetic round trip.  For every value `v` and every number of
places, decoding the encoding succeeds and the result differs from `v` by at
most `2 ^ (-places)`. -/
theorem real_round_trip_bounded_error (v : ℚ) (places : ℕ) :
    ∃ q, to_decimal (to_csd v places) = .ok q ∧ |q - v| ≤ (2:ℚ) ^ (-(places : ℤ)) := by
  have hbound : (2:ℚ) ^ (-(places : ℤ)) = 1 / 2 ^ places := by
    rw [zpow_neg, zpow_natCast, one_div]
  by_cases habs : 1 ≤ |v|
  · set remz : ℤ := Int.clog 2 (|v| * (3/2)) with hremz
    have hq32 : (1:ℚ) < |v| * (3/2) := by nlinarith [abs_nonneg v]
    have hqpos : (0:ℚ) < |v| * (3/2) := lt_trans one_pos hq32
    have hrpos : 0 < remz := by
      rw [hremz, ← Int.zpow_lt_iff_lt_clog (by norm_num) hqpos]
      simpa using hq32
    have hz : ((2:ℚ) ^ remz) = 2 ^ remz.toNat := by
      rw [← zpow_natCast, Int.toNat_of_nonneg (le_of_lt hrpos)]
    have hle : |v| * (3/2) ≤ (2:ℚ) ^ remz :=
      hremz ▸ Int.self_le_zpow_clog (by norm_num) _
    have hvb : |v| ≤ 2 ^ remz.toNat := by
      rw [← hz]
      nlinarith [abs_nonneg v, zpow_pos (show (0:ℚ) < 2 by norm_num) remz]
    have hcsd : to_csd v places =
        (csdLoop v (2 ^ remz.toNat) remz.toNat).1 ++
          '.' :: (csdLoop (csdLoop v (2 ^ remz.toNat) remz.toNat).2 1 places).1 := by
      simp only [to_csd, ← hremz, if_pos habs, hz, List.nil_append]
    have hres1 : |(csdLoop v (2 ^ remz.toNat) remz.toNat).2| ≤ 1 := by
      have := csdLoop_residual remz.toNat v (2 ^ remz.toNat) hvb
      rwa [div_self (by positivity)] at this
    set v1 := (csdLoop v (2 ^ remz.toNat) remz.toNat).2 with hv1
    have hres2 : |(csdLoop v1 1 places).2| ≤ 1 / 2 ^ places :=
      csdLoop_residual places v1 1 hres1
    have hdots1 : ∀ c ∈ (csdLoop v (2 ^ remz.toNat) remz.toNat).1, c ≠ '.' := by
      intro c hc
      rcases csdLoop_chars _ _ _ c hc with h | h | h <;> subst h <;> decide
    obtain ⟨htw, hdw⟩ := takeWhile_dot_append _ ((csdLoop v1 1 places).1) hdots1
    have hpre : ∀ c ∈ (to_csd v places).takeWhile (· != '.'),
        c = '0' ∨ c = '+' ∨ c = '-' := by
      rw [hcsd, htw]
      exact csdLoop_chars _ _ _
    have hfrac : fractionalLoop 0 (1/2) ((csdLoop v1 1 places).1) =
        .ok (0 + (v1 - (csdLoop v1 1 places).2)) := by
      simpa using csdLoop_frac_decode places v1 1 0
    have hdec := to_decimal_ok_dot (to_csd v places) ((csdLoop v1 1 places).1) _
      hpre (by rw [hcsd]; exact hdw) hfrac
    have htw2 : (to_csd v places).takeWhile (· != '.') =
        (csdLoop v (2 ^ remz.toNat) remz.toNat).1 := by
      rw [hcsd]; exact htw
    rw [htw2] at hdec
    refine ⟨_, hdec, ?_⟩
    have hD := csdLoop_int_decode remz.toNat v 0
    rw [Int.cast_zero, mul_zero, zero_add, ← hv1] at hD
    rw [hbound, hD]
    have : (v - v1) + (0 + (v1 - (csdLoop v1 1 places).2)) - v =
        -(csdLoop v1 1 places).2 := by ring
    rw [this, abs_neg]
    exact hres2
  · push_neg at habs
    have hvb : |v| ≤ 1 := le_of_lt habs
    have hnabs : ¬ (1:ℚ) ≤ |v| := not_le.2 habs
    have hcsd : to_csd v places = '0' :: '.' :: (csdLoop v 1 places).1 := by
      simp [to_csd, hnabs, csdLoop]
    have hres2 : |(csdLoop v 1 places).2| ≤ 1 / 2 ^ places :=
      csdLoop_residual places v 1 hvb
    have hpre : ∀ c ∈ (to_csd v places).takeWhile (· != '.'),
        c = '0' ∨ c = '+' ∨ c = '-' := by
      rw [hcsd]
      intro c hc
      simp only [List.takeWhile_cons] at hc
      norm_num at hc
      simp [hc]
    have hdw : (to_csd v places).dropWhile (· != '.') = '.' :: (csdLoop v 1 places).1 := by
      rw [hcsd]
      simp [List.dropWhile_cons]
    have hfrac : fractionalLoop 0 (1/2) ((csdLoop v 1 places).1) =
        .ok (0 + (v - (csdLoop v 1 places).2)) := by
      simpa using csdLoop_frac_decode places v 1 0
    have hdec := to_decimal_ok_dot (to_csd v places) ((csdLoop v 1 places).1) _
      hpre hdw hfrac
    have htw : (to_csd v places).takeWhile (· != '.') = ['0'] := by
      rw [hcsd]
      simp [List.takeWhile_cons]
    rw [htw] at hdec
    refine ⟨_, hdec, ?_⟩
    rw [hbound]
    have hdv : digitsVal 0 ['0'] = 0 := by decide
    rw [hdv]
    have : ((0:ℤ):ℚ) + (0 + (v - (csdLoop v 1 places).2)) - v =
        -(csdLoop v 1 places).2 := by push_cast; ring
    rw [this, abs_neg]
    exact hres2

/-! ## C1: exact integer round trip -/

theorem orShift_testBit (y a j : ℕ) :
    (y ||| y >>> a).testBit j = (y.testBit j || y.testBit (j + a)) := by
  rw [Nat.testBit_lor, Nat.testBit_shiftRight, Nat.add_comm a j]

/-- Widening step for the bit smear: or-ing in a right shift by the current
window width doubles the window. -/
theorem smear_window_double {x y w : ℕ}
    (h : ∀ j, y.testBit j = true ↔ ∃ d, d < w ∧ x.testBit (j + d) = true) :
    ∀ j, (y ||| y >>> w).testBit j = true ↔ ∃ d, d < 2 * w ∧ x.testBit (j + d) = true := by
  intro j
  rw [orShift_testBit, Bool.or_eq_true, h j, h (j + w)]
  constructor
  · rintro (⟨d, hd, hbit⟩ | ⟨d, hd, hbit⟩)
    · exact ⟨d, by omega, hbit⟩
    · exact ⟨w + d, by omega, by rwa [Nat.add_assoc] at hbit⟩
  · rintro ⟨d, hd, hbit⟩
    by_cases hc : d < w
    · exact .inl ⟨d, hc, hbit⟩
    · exact .inr ⟨d - w, by omega, by rw [show j + w + (d - w) = j + d by omega]; exact hbit⟩

/-- The bit trick is the mathematical highest power of two on the `uint32_t`
domain. -/
theorem highest_power_of_two_in_eq (x : ℕ) (h0 : 0 < x) (h32 : x < 2 ^ 32) :
    highest_power_of_two_in x = 2 ^ Nat.log2 x := by
  set k := Nat.log2 x with hk
  have hk1 : 2 ^ k ≤ x := Nat.log2_self_le h0.ne'
  have hk2 : x < 2 ^ (k + 1) := Nat.lt_log2_self
  have hk32 : k < 32 := by
    by_contra hge
    push_neg at hge
    exact absurd (lt_of_le_of_lt (le_trans (Nat.pow_le_pow_right (by norm_num) hge) hk1) h32)
      (lt_irrefl _)
  have hbitk : x.testBit k = true := by
    rw [Nat.testBit_to_div_mod]
    have : x / 2 ^ k = 1 := Nat.div_eq_of_lt_le (by simpa using hk1)
      (by have hp : (2:ℕ) ^ (k + 1) = 2 ^ k + 2 ^ k := by rw [pow_succ]; ring
          omega)
    simp [this]
  have hbithigh : ∀ j, k < j → x.testBit j = false := fun j hj =>
    Nat.testBit_lt_two_pow (lt_of_lt_of_le hk2 (Nat.pow_le_pow_right (by norm_num) hj))
  have w1 : ∀ j, x.testBit j = true ↔ ∃ d, d < 1 ∧ x.testBit (j + d) = true := by
    intro j
    constructor
    · intro hb
      exact ⟨0, Nat.zero_lt_one, by simpa using hb⟩
    · rintro ⟨d, hd, hb⟩
      interval_cases d
      simpa using hb
  have w2 := smear_window_double w1
  have w4 := smear_window_double w2
  have w8 := smear_window_double w4
  have w16 := smear_window_double w8
  have w32 := smear_window_double w16
  set s5 := ((((x ||| x >>> 1) ||| (x ||| x >>> 1) >>> 2) |||
      ((x ||| x >>> 1) ||| (x ||| x >>> 1) >>> 2) >>> 4) |||
      (((x ||| x >>> 1) ||| (x ||| x >>> 1) >>> 2) |||
      ((x ||| x >>> 1) ||| (x ||| x >>> 1) >>> 2) >>> 4) >>> 8) with hs5
  have hw32 : ∀ j, (s5 ||| s5 >>> 16).testBit j = true ↔
      ∃ d, d < 32 ∧ x.testBit (j + d) = true := by
    intro j
    simpa using w32 j
  have hfill : s5 ||| s5 >>> 16 = 2 ^ (k + 1) - 1 := by
    apply Nat.eq_of_testBit_eq
    intro j
    rw [Nat.testBit_two_pow_sub_one]
    by_cases hj : j < k + 1
    · rw [(hw32 j).2 ⟨k - j, by omega, by rw [show j + (k - j) = k by omega]; exact hbitk⟩]
      simp [hj]
    · have : (s5 ||| s5 >>> 16).testBit j = false := by
        by_contra hne
        rw [Bool.not_eq_false] at hne
        obtain ⟨d, _, hb⟩ := (hw32 j).1 hne
        exact absurd hb (by rw [hbithigh (j + d) (by omega)]; simp)
      rw [this]
      simp [hj]
  have hdef : highest_power_of_two_in x =
      (s5 ||| s5 >>> 16) ^^^ ((s5 ||| s5 >>> 16) >>> 1) := rfl
  rw [hdef, hfill]
  have hshift : (2 ^ (k + 1) - 1) >>> 1 = 2 ^ k - 1 := by
    rw [Nat.shiftRight_eq_div_pow]
    omega
  rw [hshift]
  apply Nat.eq_of_testBit_eq
  intro j
  rw [Nat.testBit_xor, Nat.testBit_two_pow_sub_one, Nat.testBit_two_pow_sub_one]
  by_cases hjk : j = k
  · subst hjk
    simp [Nat.testBit_two_pow_self]
  · rw [Nat.testBit_two_pow_of_ne (Ne.symm hjk)]
    by_cases hlt : j < k
    · simp [hlt, Nat.lt_succ_of_lt hlt]
    · have h1 : ¬ j < k + 1 := by omega
      simp [hlt, h1]

theorem pow2_not_three_dvd (m : ℕ) : ¬ (3 : ℤ) ∣ 2 ^ m := by
  intro hdvd
  have hn : (3 : ℕ) ∣ 2 ^ m := by
    have := Int.natCast_dvd_natCast.2 (Nat.dvd_refl 3)
    exact_mod_cast hdvd
  have := Nat.Prime.dvd_of_dvd_pow (by norm_num) hn
  omega

/-- Round-trip core for the integer encoder loop: starting from a power of
two `p2n` with `3 |v| < 2 * p2n`, the loop drives the residual to exactly
zero, and feeding the digits to the integral decoder loop recovers `v`
(shifted past any accumulator). -/
theorem csdILoop_decode (p2n : ℕ) :
    ∀ (v acc : ℤ), (∃ k, p2n = 2 ^ k) → 3 * v.natAbs < 2 * p2n →
      integralLoop acc (csdILoop v p2n) = .ok ((p2n : ℤ) * acc + v, []) := by
  induction p2n using Nat.strong_induction_on with
  | _ p2n ih =>
    rintro v acc ⟨k, rfl⟩ hband
    cases k with
    | zero =>
      have hv : v = 0 := by
        simp only [pow_zero] at hband
        omega
      subst hv
      rw [csdILoop]
      norm_num [integralLoop]
    | succ k =>
      have hhalf : (2:ℕ) ^ (k + 1) / 2 = 2 ^ k := by
        rw [pow_succ, Nat.mul_div_cancel _ two_pos]
      have hlt : (2:ℕ) ^ k < 2 ^ (k + 1) := Nat.pow_lt_pow_succ one_lt_two
      have hz : ((2 ^ (k + 1) : ℕ) : ℤ) = 2 * ((2 ^ k : ℕ) : ℤ) := by
        push_cast
        ring
      have hzpos : (0:ℤ) < ((2 ^ k : ℕ) : ℤ) := by positivity
      have hbandz : 3 * (v.natAbs : ℤ) < 2 * ((2 ^ (k + 1) : ℕ) : ℤ) := by
        exact_mod_cast hband
      have hzdiv : ((2 ^ (k + 1) : ℕ) : ℤ) / 2 = ((2 ^ k : ℕ) : ℤ) := by
        rw [hz]
        omega
      rw [csdILoop, if_pos (Nat.one_lt_two_pow_iff.2 (Nat.succ_ne_zero k)), hhalf, hzdiv]
      by_cases hc1 : ((2 ^ (k + 1) : ℕ) : ℤ) < 3 * v
      · rw [if_pos hc1]
        have hband2 : 3 * (v - ((2 ^ k : ℕ) : ℤ)).natAbs < 2 * 2 ^ k := by
          rw [hz] at hc1
          have : 3 * ((v - ((2 ^ k : ℕ) : ℤ)).natAbs : ℤ) < 2 * ((2 ^ k : ℕ) : ℤ) := by
            rw [hz] at hbandz
            omega
          exact_mod_cast this
        rw [show integralLoop acc ('+' :: csdILoop (v - ((2 ^ k : ℕ) : ℤ)) (2 ^ k))
              = integralLoop (2 * acc + 1) (csdILoop (v - ((2 ^ k : ℕ) : ℤ)) (2 ^ k))
            from by simp [integralLoop]]
        rw [ih (2 ^ k) hlt _ _ ⟨k, rfl⟩ hband2]
        rw [show ((2 ^ k : ℕ) : ℤ) * (2 * acc + 1) + (v - ((2 ^ k : ℕ) : ℤ))
              = ((2 ^ (k + 1) : ℕ) : ℤ) * acc + v from by rw [hz]; ring]
      by_cases hc2 : 3 * v < -((2 ^ (k + 1) : ℕ) : ℤ)
      · rw [if_neg hc1, if_pos hc2]
        have hband2 : 3 * (v + ((2 ^ k : ℕ) : ℤ)).natAbs < 2 * 2 ^ k := by
          rw [hz] at hc2
          have : 3 * ((v + ((2 ^ k : ℕ) : ℤ)).natAbs : ℤ) < 2 * ((2 ^ k : ℕ) : ℤ) := by
            rw [hz] at hbandz
            omega
          exact_mod_cast this
        rw [show integralLoop acc ('-' :: csdILoop (v + ((2 ^ k : ℕ) : ℤ)) (2 ^ k))
              = integralLoop (2 * acc - 1) (csdILoop (v + ((2 ^ k : ℕ) : ℤ)) (2 ^ k))
            from by simp [integralLoop]]
        rw [ih (2 ^ k) hlt _ _ ⟨k, rfl⟩ hband2]
        rw [show ((2 ^ k : ℕ) : ℤ) * (2 * acc - 1) + (v + ((2 ^ k : ℕ) : ℤ))
              = ((2 ^ (k + 1) : ℕ) : ℤ) * acc + v from by rw [hz]; ring]
      · rw [if_neg hc1, if_neg hc2]
        push_neg at hc1 hc2
        have hne1 : 3 * v ≠ ((2 ^ (k + 1) : ℕ) : ℤ) := by
          intro heq
          refine pow2_not_three_dvd (k + 1) ⟨v, ?_⟩
          rw [show ((2:ℤ) ^ (k + 1)) = ((2 ^ (k + 1) : ℕ) : ℤ) from by push_cast; ring, ← heq]
        have hne2 : 3 * v ≠ -((2 ^ (k + 1) : ℕ) : ℤ) := by
          intro heq
          refine pow2_not_three_dvd (k + 1) ⟨-v, ?_⟩
          rw [show ((2:ℤ) ^ (k + 1)) = ((2 ^ (k + 1) : ℕ) : ℤ) from by push_cast; ring]
          omega
        have hband2 : 3 * v.natAbs < 2 * 2 ^ k := by
          have : 3 * (v.natAbs : ℤ) < 2 * ((2 ^ k : ℕ) : ℤ) := by
            rw [hz] at hc1 hc2 hne1 hne2
            omega
          exact_mod_cast this
        rw [show integralLoop acc ('0' :: csdILoop v (2 ^ k))
              = integralLoop (2 * acc) (csdILoop v (2 ^ k)) from by simp [integralLoop]]
        rw [ih (2 ^ k) hlt _ _ ⟨k, rfl⟩ hband2]
        rw [show ((2 ^ k : ℕ) : ℤ) * (2 * acc) + v
              = ((2 ^ (k + 1) : ℕ) : ℤ) * acc + v from by rw [hz]; ring]

/-- C1: the integer round trip is exact on the whole `int` range (exact
integer arithmetic; `|v| ≤ 2 ^ 31 - 1` keeps the `uint32_t` computation of
the highest power of two inside its domain). -/
theorem integer_round_trip_exact (v : ℤ) (h : v.natAbs ≤ 2147483647) :
    to_decimal_i (to_csd_i v) = .ok v := by
  by_cases hv0 : v = 0
  · subst hv0
    norm_num [to_csd_i, to_decimal_i, to_decimal_integral, integralLoop]
  · have habs : 1 ≤ v.natAbs := by
      rcases Int.natAbs_eq v with he | he <;> omega
    have htpos : 0 < v.natAbs * 3 / 2 := by omega
    have ht32 : v.natAbs * 3 / 2 < 2 ^ 32 := by omega
    have hmod : v.natAbs * 3 / 2 % 4294967296 = v.natAbs * 3 / 2 :=
      Nat.mod_eq_of_lt (by omega)
    have hsmear : highest_power_of_two_in (v.natAbs * 3 / 2) =
        2 ^ Nat.log2 (v.natAbs * 3 / 2) :=
      highest_power_of_two_in_eq _ htpos ht32
    set k := Nat.log2 (v.natAbs * 3 / 2) with hk
    have hband : 3 * v.natAbs < 2 * (2 ^ k * 2) := by
      have h2 : v.natAbs * 3 / 2 < 2 ^ (k + 1) := hk ▸ Nat.lt_log2_self
      have hps : (2:ℕ) ^ (k + 1) = 2 * 2 ^ k := by rw [pow_succ]; ring
      omega
    have hdec := csdILoop_decode (2 ^ k * 2) v 0
      ⟨k + 1, by rw [pow_succ]⟩ hband
    unfold to_csd_i to_decimal_i to_decimal_integral
    rw [if_neg hv0, hmod, hsmear, hdec]
    simp

/-- Witness for C1 at `v = 28`. -/
theorem integer_round_trip_exact_witness : to_decimal_i (to_csd_i 28) = .ok 28 :=
  integer_round_trip_exact 28 (by norm_num)

/-! ## C3: canonical form (no two adjacent nonzero digits) -/

/-- Remove the separator, as the claim's adjacency ignores `'.'`. -/
def stripDot (l : List Char) : List Char := l.filter (· != '.')

/-- No two adjacent characters are both nonzero digits. -/
def noAdjNonzero : List Char → Bool
  | a :: b :: t => !(a != '0' && b != '0') && noAdjNonzero (b :: t)
  | _ => true

theorem noAdjNonzero_cons_zero (l : List Char) :
    noAdjNonzero ('0' :: l) = noAdjNonzero l := by
  cases l with
  | nil => rfl
  | cons b t => simp [noAdjNonzero]

theorem noAdjNonzero_cons_cons (a : Char) (t : List Char) :
    noAdjNonzero (a :: '0' :: t) = noAdjNonzero t := by
  rw [show noAdjNonzero (a :: '0' :: t) = (!(a != '0' && '0' != '0') && noAdjNonzero ('0' :: t))
    from rfl]
  rw [noAdjNonzero_cons_zero]
  simp

/-- Canonicity of the real digit loop on the safe band `|v| ≤ (2/3) p2n`:
once a nonzero digit is emitted the residual falls inside the zero band of
the next position. -/
theorem csdLoop_canon (n : ℕ) :
    ∀ (v p : ℚ), 0 < p → |v| ≤ 2/3 * p → noAdjNonzero (csdLoop v p n).1 = true := by
  induction n using Nat.strong_induction_on with
  | _ n ih =>
    intro v p hp hv
    have hub : v ≤ 2/3 * p := le_trans (le_abs_self v) hv
    have hlb : -(2/3 * p) ≤ v := neg_le_of_abs_le hv
    cases n with
    | zero => simp [csdLoop, noAdjNonzero]
    | succ m =>
      by_cases h1 : p / 2 < 3/2 * v
      · have hv' : |v - p / 2| ≤ 1/3 * (p / 2) := by
          rw [abs_le]
          constructor <;> nlinarith
        cases m with
        | zero => simp [csdLoop, h1, noAdjNonzero]
        | succ l =>
          have hub' : v - p / 2 ≤ 1/3 * (p / 2) := le_trans (le_abs_self _) hv'
          have hlb' : -(1/3 * (p / 2)) ≤ v - p / 2 := neg_le_of_abs_le hv'
          have h1' : ¬ p / 2 / 2 < 3/2 * (v - p / 2) := by
            rw [not_lt]
            nlinarith
          have h2' : ¬ 3/2 * (v - p / 2) < -(p / 2 / 2) := by
            rw [not_lt]
            nlinarith
          simp only [csdLoop, if_pos h1, if_neg h1', if_neg h2']
          rw [noAdjNonzero_cons_cons]
          exact ih l (by omega) (v - p / 2) (p / 2 / 2) (by positivity)
            (by rw [show 2/3 * (p / 2 / 2) = 1/3 * (p / 2) by ring]; exact hv')
      by_cases h2 : 3/2 * v < -(p / 2)
      · have hv' : |v + p / 2| ≤ 1/3 * (p / 2) := by
          rw [abs_le]
          constructor <;> nlinarith
        cases m with
        | zero => simp [csdLoop, h1, h2, noAdjNonzero]
        | succ l =>
          have hub' : v + p / 2 ≤ 1/3 * (p / 2) := le_trans (le_abs_self _) hv'
          have hlb' : -(1/3 * (p / 2)) ≤ v + p / 2 := neg_le_of_abs_le hv'
          have h1' : ¬ p / 2 / 2 < 3/2 * (v + p / 2) := by
            rw [not_lt]
            nlinarith
          have h2' : ¬ 3/2 * (v + p / 2) < -(p / 2 / 2) := by
            rw [not_lt]
            nlinarith
          simp only [csdLoop, if_neg h1, if_pos h2, if_neg h1', if_neg h2']
          rw [noAdjNonzero_cons_cons]
          exact ih l (by omega) (v + p / 2) (p / 2 / 2) (by positivity)
            (by rw [show 2/3 * (p / 2 / 2) = 1/3 * (p / 2) by ring]; exact hv')
      · have hv' : |v| ≤ 2/3 * (p / 2) := by
          rw [not_lt] at h1 h2
          rw [abs_le]
          constructor <;> nlinarith
        simp only [csdLoop, if_neg h1, if_neg h2]
        rw [noAdjNonzero_cons_zero]
        exact ih m (by omega) v (p / 2) (by positivity) hv'

/-- The integer loop only emits digit characters. -/
theorem csdILoop_chars (p2n : ℕ) :
    ∀ (v : ℤ), ∀ c ∈ csdILoop v p2n, c = '0' ∨ c = '+' ∨ c = '-' := by
  induction p2n using Nat.strong_induction_on with
  | _ p2n ih =>
    intro v c hc
    by_cases hgt : 1 < p2n
    swap
    · rw [csdILoop, if_neg hgt] at hc
      simp at hc
    have hlt : p2n / 2 < p2n := Nat.div_lt_self (by omega) (by omega)
    rw [csdILoop, if_pos hgt] at hc
    by_cases hc1 : (p2n : ℤ) < 3 * v
    · rw [if_pos hc1] at hc
      rcases List.mem_cons.1 hc with h | h
      · exact .inr (.inl h)
      · exact ih _ hlt _ c h
    by_cases hc2 : 3 * v < -(p2n : ℤ)
    · rw [if_neg hc1, if_pos hc2] at hc
      rcases List.mem_cons.1 hc with h | h
      · exact .inr (.inr h)
      · exact ih _ hlt _ c h
    · rw [if_neg hc1, if_neg hc2] at hc
      rcases List.mem_cons.1 hc with h | h
      · exact .inl h
      · exact ih _ hlt _ c h

/-- Canonicity of the integer digit loop on the band `3 |v| ≤ 2 p2n`. -/
theorem csdILoop_canon (p2n : ℕ) :
    ∀ (v : ℤ), (∃ k, p2n = 2 ^ k) → 3 * v.natAbs ≤ 2 * p2n →
      noAdjNonzero (csdILoop v p2n) = true := by
  induction p2n using Nat.strong_induction_on with
  | _ p2n ih =>
    rintro v ⟨k, rfl⟩ hband
    cases k with
    | zero =>
      rw [csdILoop]
      norm_num [noAdjNonzero]
    | succ k =>
      have hhalf : (2:ℕ) ^ (k + 1) / 2 = 2 ^ k := by
        rw [pow_succ, Nat.mul_div_cancel _ two_pos]
      have hlt : (2:ℕ) ^ k < 2 ^ (k + 1) := Nat.pow_lt_pow_succ one_lt_two
      have hz : ((2 ^ (k + 1) : ℕ) : ℤ) = 2 * ((2 ^ k : ℕ) : ℤ) := by
        push_cast
        ring
      have hzpos : (0:ℤ) < ((2 ^ k : ℕ) : ℤ) := by positivity
      have hzdiv : ((2 ^ (k + 1) : ℕ) : ℤ) / 2 = ((2 ^ k : ℕ) : ℤ) := by
        rw [hz]
        omega
      have hbandz : 3 * (v.natAbs : ℤ) ≤ 2 * ((2 ^ (k + 1) : ℕ) : ℤ) := by
        exact_mod_cast hband
      rw [csdILoop, if_pos (Nat.one_lt_two_pow_iff.2 (Nat.succ_ne_zero k)), hhalf, hzdiv]
      by_cases hc1 : ((2 ^ (k + 1) : ℕ) : ℤ) < 3 * v
      · rw [if_pos hc1]
        have hub' : 3 * (v - ((2 ^ k : ℕ) : ℤ)) ≤ ((2 ^ k : ℕ) : ℤ) := by
          rw [hz] at hbandz
          omega
        have hlb' : -((2 ^ k : ℕ) : ℤ) ≤ 3 * (v - ((2 ^ k : ℕ) : ℤ)) := by
          rw [hz] at hc1
          omega
        cases k with
        | zero =>
          rw [csdILoop]
          norm_num [noAdjNonzero]
        | succ l =>
          have hhalf2 : (2:ℕ) ^ (l + 1) / 2 = 2 ^ l := by
            rw [pow_succ, Nat.mul_div_cancel _ two_pos]
          have hz2 : ((2 ^ (l + 1) : ℕ) : ℤ) = 2 * ((2 ^ l : ℕ) : ℤ) := by
            push_cast
            ring
          have hzdiv2 : ((2 ^ (l + 1) : ℕ) : ℤ) / 2 = ((2 ^ l : ℕ) : ℤ) := by
            rw [hz2]
            omega
          rw [csdILoop, if_pos (Nat.one_lt_two_pow_iff.2 (Nat.succ_ne_zero l)), hhalf2, hzdiv2]
          rw [if_neg (not_lt.2 hub'), if_neg (not_lt.2 (by omega))]
          rw [noAdjNonzero_cons_cons]
          refine ih (2 ^ l) (by omega) _ ⟨l, rfl⟩ ?_
          have : 3 * ((v - ((2 ^ (l + 1) : ℕ) : ℤ)).natAbs : ℤ) ≤ 2 * ((2 ^ l : ℕ) : ℤ) := by
            rw [hz2] at hub' hlb'
            omega
          exact_mod_cast this
      by_cases hc2 : 3 * v < -((2 ^ (k + 1) : ℕ) : ℤ)
      · rw [if_neg hc1, if_pos hc2]
        have hub' : 3 * (v + ((2 ^ k : ℕ) : ℤ)) ≤ ((2 ^ k : ℕ) : ℤ) := by
          rw [hz] at hc2
          omega
        have hlb' : -((2 ^ k : ℕ) : ℤ) ≤ 3 * (v + ((2 ^ k : ℕ) : ℤ)) := by
          rw [hz] at hbandz
          omega
        cases k with
        | zero =>
          rw [csdILoop]
          norm_num [noAdjNonzero]
        | succ l =>
          have hhalf2 : (2:ℕ) ^ (l + 1) / 2 = 2 ^ l := by
            rw [pow_succ, Nat.mul_div_cancel _ two_pos]
          have hz2 : ((2 ^ (l + 1) : ℕ) : ℤ) = 2 * ((2 ^ l : ℕ) : ℤ) := by
            push_cast
            ring
          have hzdiv2 : ((2 ^ (l + 1) : ℕ) : ℤ) / 2 = ((2 ^ l : ℕ) : ℤ) := by
            rw [hz2]
            omega
          rw [csdILoop, if_pos (Nat.one_lt_two_pow_iff.2 (Nat.succ_ne_zero l)), hhalf2, hzdiv2]
          rw [if_neg (not_lt.2 hub'), if_neg (not_lt.2 (by omega))]
          rw [noAdjNonzero_cons_cons]
          refine ih (2 ^ l) (by omega) _ ⟨l, rfl⟩ ?_
          have : 3 * ((v + ((2 ^ (l + 1) : ℕ) : ℤ)).natAbs : ℤ) ≤ 2 * ((2 ^ l : ℕ) : ℤ) := by
            rw [hz2] at hub' hlb'
            omega
          exact_mod_cast this
      · rw [if_neg hc1, if_neg hc2]
        rw [noAdjNonzero_cons_zero]
        refine ih (2 ^ k) (by omega) _ ⟨k, rfl⟩ ?_
        have : 3 * (v.natAbs : ℤ) ≤ 2 * ((2 ^ k : ℕ) : ℤ) := by
          rw [hz] at hc1 hc2
          push_neg at hc1 hc2
          omega
        exact_mod_cast this

/-- Splitting a run of the digit loop. -/
theorem csdLoop_add (n m : ℕ) :
    ∀ (v p : ℚ), (csdLoop v p (n + m)).1 =
      (csdLoop v p n).1 ++ (csdLoop (csdLoop v p n).2 (p / 2 ^ n) m).1 := by
  induction n with
  | zero =>
    intro v p
    simp [csdLoop]
  | succ n ih =>
    intro v p
    have hstep : p / 2 / 2 ^ n = p / 2 ^ (n + 1) := by
      rw [pow_succ]
      ring
    rw [Nat.succ_add]
    by_cases h1 : p / 2 < 3/2 * v
    · simp only [csdLoop, if_pos h1]
      rw [ih (v - p / 2) (p / 2), hstep]
      simp
    by_cases h2 : 3/2 * v < -(p / 2)
    · simp only [csdLoop, if_neg h1, if_pos h2]
      rw [ih (v + p / 2) (p / 2), hstep]
      simp
    · simp only [csdLoop, if_neg h1, if_neg h2]
      rw [ih v (p / 2), hstep]
      simp

theorem stripDot_digits {l : List Char} (h : ∀ c ∈ l, c = '0' ∨ c = '+' ∨ c = '-') :
    stripDot l = l := by
  rw [stripDot, List.filter_eq_self]
  intro c hc
  rcases h c hc with hc0 | hc0 | hc0 <;> subst hc0 <;> decide

/-- C3 (amended): the integer encoder always emits a canonical string, and
the real encoder emits a canonical string whenever `|v| ≤ 2/3` or `1 ≤ |v|`
(the remaining band `2/3 < |v| < 1` violates canonicity, see the
counterexample). -/
theorem encoder_canonical_form (vi : ℤ) (v : ℚ) (places : ℕ)
    (hvi : vi.natAbs ≤ 2147483647) (h : |v| ≤ 2/3 ∨ 1 ≤ |v|) :
    noAdjNonzero (stripDot (to_csd_i vi)) = true ∧
      noAdjNonzero (stripDot (to_csd v places)) = true := by
  constructor
  · by_cases hv0 : vi = 0
    · subst hv0
      decide
    · have habs : 1 ≤ vi.natAbs := by
        rcases Int.natAbs_eq vi with he | he <;> omega
      have htpos : 0 < vi.natAbs * 3 / 2 := by omega
      have ht32 : vi.natAbs * 3 / 2 < 2 ^ 32 := by omega
      have hmod : vi.natAbs * 3 / 2 % 4294967296 = vi.natAbs * 3 / 2 :=
        Nat.mod_eq_of_lt (by omega)
      have hsmear : highest_power_of_two_in (vi.natAbs * 3 / 2) =
          2 ^ Nat.log2 (vi.natAbs * 3 / 2) :=
        highest_power_of_two_in_eq _ htpos ht32
      set k := Nat.log2 (vi.natAbs * 3 / 2) with hk
      have hband : 3 * vi.natAbs ≤ 2 * (2 ^ k * 2) := by
        have h2 : vi.natAbs * 3 / 2 < 2 ^ (k + 1) := hk ▸ Nat.lt_log2_self
        have hps : (2:ℕ) ^ (k + 1) = 2 * 2 ^ k := by rw [pow_succ]; ring
        omega
      unfold to_csd_i
      rw [if_neg hv0, hmod, hsmear]
      rw [stripDot_digits (csdILoop_chars _ _)]
      exact csdILoop_canon (2 ^ k * 2) vi ⟨k + 1, by rw [pow_succ]⟩ hband
  · by_cases habs : 1 ≤ |v|
    · set remz : ℤ := Int.clog 2 (|v| * (3/2)) with hremz
      have hq32 : (1:ℚ) < |v| * (3/2) := by nlinarith [abs_nonneg v]
      have hqpos : (0:ℚ) < |v| * (3/2) := lt_trans one_pos hq32
      have hrpos : 0 < remz := by
        rw [hremz, ← Int.zpow_lt_iff_lt_clog (by norm_num) hqpos]
        simpa using hq32
      have hz : ((2:ℚ) ^ remz) = 2 ^ remz.toNat := by
        rw [← zpow_natCast, Int.toNat_of_nonneg (le_of_lt hrpos)]
      have hle : |v| * (3/2) ≤ (2:ℚ) ^ remz :=
        hremz ▸ Int.self_le_zpow_clog (by norm_num) _
      have hvband : |v| ≤ 2/3 * 2 ^ remz.toNat := by
        rw [← hz]
        nlinarith [abs_nonneg v, zpow_pos (show (0:ℚ) < 2 by norm_num) remz]
      have hcsd : to_csd v places =
          (csdLoop v (2 ^ remz.toNat) remz.toNat).1 ++
            '.' :: (csdLoop (csdLoop v (2 ^ remz.toNat) remz.toNat).2 1 places).1 := by
        simp only [to_csd, ← hremz, if_pos habs, hz, List.nil_append]
      have hone : (1 : ℚ) = 2 ^ remz.toNat / 2 ^ remz.toNat := by
        rw [div_self (by positivity)]
      rw [hcsd, stripDot, List.filter_append, ← stripDot, ← stripDot]
      rw [stripDot_digits (csdLoop_chars _ _ _)]
      rw [show stripDot ('.' :: (csdLoop (csdLoop v (2 ^ remz.toNat) remz.toNat).2 1 places).1)
            = stripDot ((csdLoop (csdLoop v (2 ^ remz.toNat) remz.toNat).2 1 places).1) from rfl]
      rw [stripDot_digits (csdLoop_chars _ _ _)]
      rw [hone, ← csdLoop_add remz.toNat places v (2 ^ remz.toNat)]
      exact csdLoop_canon _ v (2 ^ remz.toNat) (by positivity) hvband
    · have hv23 : |v| ≤ 2/3 := h.resolve_right habs
      have hnabs : ¬ (1:ℚ) ≤ |v| := habs
      have hcsd : to_csd v places = '0' :: '.' :: (csdLoop v 1 places).1 := by
        simp [to_csd, hnabs, csdLoop]
      rw [hcsd]
      rw [show stripDot ('0' :: '.' :: (csdLoop v 1 places).1)
            = '0' :: stripDot ((csdLoop v 1 places).1) from rfl]
      rw [stripDot_digits (csdLoop_chars _ _ _), noAdjNonzero_cons_zero]
      exact csdLoop_canon places v 1 one_pos (by linarith)

/-- Witness for C3's amended statement at `vi = 28`, `v = 57/2`, `places = 2`. -/
theorem encoder_canonical_form_witness :
    noAdjNonzero (stripDot (to_csd_i 28)) = true ∧
      noAdjNonzero (stripDot (to_csd (57/2) 2)) = true :=
  encoder_canonical_form 28 (57/2) 2 (by norm_num)
    (.inr (by rw [show |(57:ℚ)/2| = 57/2 from abs_of_nonneg (by norm_num)]; norm_num))

/-- C3 counterexample: `to_csd (9/10) 2 = "0.++"` has two adjacent nonzero
digits (ignoring the separator), violating the claimed output invariant. -/
theorem to_csd_adjacent_nonzero_cex :
    noAdjNonzero (stripDot (to_csd (9/10) 2)) = false := by
  have h : to_csd (9/10) 2 = ['0', '.', '+', '+'] := by
    have habs : ¬ (1 : ℚ) ≤ |(9:ℚ)/10| := by
      rw [show |(9:ℚ)/10| = 9/10 from abs_of_nonneg (by norm_num)]
      norm_num
    norm_num [to_csd, habs, csdLoop]
  rw [h]
  decide

/-! ## C4: the nonzero-digit budget of the bounded encoders -/

/-- Number of nonzero symbols in a CSD string. -/
def countNonzero (l : List Char) : ℕ := (l.filter fun c => c == '+' || c == '-').length

theorem countNonzero_nil : countNonzero [] = 0 := rfl

theorem countNonzero_cons_plus (t : List Char) :
    countNonzero ('+' :: t) = countNonzero t + 1 := by
  simp [countNonzero, List.filter_cons]

theorem countNonzero_cons_minus (t : List Char) :
    countNonzero ('-' :: t) = countNonzero t + 1 := by
  simp [countNonzero, List.filter_cons]

theorem countNonzero_cons_zero (t : List Char) :
    countNonzero ('0' :: t) = countNonzero t := by
  simp [countNonzero, List.filter_cons]

theorem countNonzero_cons_dot (t : List Char) :
    countNonzero ('.' :: t) = countNonzero t := by
  simp [countNonzero, List.filter_cons]

theorem countNonzero_append (l1 l2 : List Char) :
    countNonzero (l1 ++ l2) = countNonzero l1 + countNonzero l2 := by
  simp [countNonzero, List.filter_append]

/-- Once the residual is zero and the budget counter is zero, the integer
bounded loop emits only `'0'`. -/
theorem csdnnzILoop_zero (p2n : ℕ) : countNonzero (csdnnzILoop 0 p2n 0) = 0 := by
  induction p2n using Nat.strong_induction_on with
  | _ p2n ih =>
    by_cases hgt : 1 < p2n
    swap
    · rw [csdnnzILoop, if_neg hgt, countNonzero_nil]
    · have hc1 : ¬ (p2n : ℤ) < 3 * 0 := by
        rw [not_lt]
        positivity
      have hc2 : ¬ 3 * (0:ℤ) < -(p2n : ℤ) := by
        rw [not_lt]
        simp
      rw [csdnnzILoop, if_pos hgt, if_neg hc1, if_neg hc2, countNonzero_cons_zero]
      simpa using ih (p2n / 2) (Nat.div_lt_self (by omega) (by omega))

/-- With a positive budget, the integer bounded loop emits at most `nnz`
nonzero digits: each emission decrements the counter, and at zero the
residual is cleared so only `'0'` follows. -/
theorem csdnnzILoop_budget (p2n : ℕ) :
    ∀ (v : ℤ) (nnz : ℕ), 1 ≤ nnz → countNonzero (csdnnzILoop v p2n nnz) ≤ nnz := by
  induction p2n using Nat.strong_induction_on with
  | _ p2n ih =>
    intro v nnz hnnz
    by_cases hgt : 1 < p2n
    swap
    · rw [csdnnzILoop, if_neg hgt, countNonzero_nil]
      omega
    have hlt : p2n / 2 < p2n := Nat.div_lt_self (by omega) (by omega)
    have hwrap : wrapDec nnz = nnz - 1 := by
      rw [wrapDec, if_neg (by omega)]
    rw [csdnnzILoop, if_pos hgt]
    by_cases hc1 : (p2n : ℤ) < 3 * v
    · rw [if_pos hc1, countNonzero_cons_plus, hwrap]
      by_cases h1 : nnz = 1
      · subst h1
        rw [show (1:ℕ) - 1 = 0 from rfl, if_pos rfl]
        rw [csdnnzILoop_zero (p2n / 2)]
      · rw [if_neg (by omega)]
        have := ih (p2n / 2) hlt (v - (p2n : ℤ) / 2) (nnz - 1) (by omega)
        omega
    by_cases hc2 : 3 * v < -(p2n : ℤ)
    · rw [if_neg hc1, if_pos hc2, countNonzero_cons_minus, hwrap]
      by_cases h1 : nnz = 1
      · subst h1
        rw [show (1:ℕ) - 1 = 0 from rfl, if_pos rfl]
        rw [csdnnzILoop_zero (p2n / 2)]
      · rw [if_neg (by omega)]
        have := ih (p2n / 2) hlt (v + (p2n : ℤ) / 2) (nnz - 1) (by omega)
        omega
    · rw [if_neg hc1, if_neg hc2, countNonzero_cons_zero, if_neg (by omega)]
      exact ih (p2n / 2) hlt v nnz hnnz

/-- Once the residual is zero and the budget counter is zero, the real
bounded loop emits only `'0'` (and possibly the separator). -/
theorem csdnnzLoop_zero (fuel : ℕ) :
    ∀ (p : ℚ) (rem : ℤ), 0 < p → countNonzero (csdnnzLoop 0 p rem 0 fuel) = 0 := by
  induction fuel with
  | zero => intro p rem hp; rfl
  | succ fuel ih =>
    intro p rem hp
    by_cases hcond : 0 < rem ∨ 0 < 0 ∧ EPS < |(0:ℚ)|
    · have hc1 : ¬ p / 2 < 3/2 * 0 := by
        rw [not_lt, mul_zero]
        positivity
      have hc2 : ¬ 3/2 * (0:ℚ) < -(p / 2) := by
        rw [not_lt, mul_zero]
        simp only [neg_nonpos]
        positivity
      have hdot : countNonzero (if rem = 0 then ['.'] else []) = 0 := by
        by_cases hrem : rem = 0 <;> simp [hrem, countNonzero]
      rw [csdnnzLoop, if_pos hcond, if_neg hc1, if_neg hc2, countNonzero_append, hdot,
        countNonzero_cons_zero, show (if (0:ℕ) = 0 then (0:ℚ) else 0) = 0 from by norm_num,
        ih (p / 2) (rem - 1) (by positivity)]
    · rw [csdnnzLoop, if_neg hcond, countNonzero_nil]

/-- With a positive budget, the real bounded loop emits at most `nnz`
nonzero digits. -/
theorem csdnnzLoop_budget (fuel : ℕ) :
    ∀ (v p : ℚ) (rem : ℤ) (nnz : ℕ), 0 < p → 1 ≤ nnz →
      countNonzero (csdnnzLoop v p rem nnz fuel) ≤ nnz := by
  induction fuel with
  | zero =>
    intro v p rem nnz hp hnnz
    rw [csdnnzLoop, countNonzero_nil]
    omega
  | succ fuel ih =>
    intro v p rem nnz hp hnnz
    by_cases hcond : 0 < rem ∨ 0 < nnz ∧ EPS < |v|
    swap
    · rw [csdnnzLoop, if_neg hcond, countNonzero_nil]
      omega
    have hwrap : wrapDec nnz = nnz - 1 := by
      rw [wrapDec, if_neg (by omega)]
    have hdot : countNonzero (if rem = 0 then ['.'] else []) = 0 := by
      by_cases hrem : rem = 0 <;> simp [hrem, countNonzero]
    rw [csdnnzLoop, if_pos hcond, countNonzero_append, hdot]
    by_cases hc1 : p / 2 < 3/2 * v
    · rw [if_pos hc1, countNonzero_cons_plus, hwrap]
      by_cases h1 : nnz = 1
      · subst h1
        rw [show (1:ℕ) - 1 = 0 from rfl, if_pos rfl]
        rw [csdnnzLoop_zero fuel (p / 2) (rem - 1) (by positivity)]
      · rw [if_neg (by omega)]
        have := ih (v - p / 2) (p / 2) (rem - 1) (nnz - 1) (by positivity) (by omega)
        omega
    by_cases hc2 : 3/2 * v < -(p / 2)
    · rw [if_neg hc1, if_pos hc2, countNonzero_cons_minus, hwrap]
      by_cases h1 : nnz = 1
      · subst h1
        rw [show (1:ℕ) - 1 = 0 from rfl, if_pos rfl]
        rw [csdnnzLoop_zero fuel (p / 2) (rem - 1) (by positivity)]
      · rw [if_neg (by omega)]
        have := ih (v + p / 2) (p / 2) (rem - 1) (nnz - 1) (by positivity) (by omega)
        omega
    · rw [if_neg hc1, if_neg hc2, countNonzero_cons_zero, if_neg (by omega)]
      have := ih v (p / 2) (rem - 1) nnz (by positivity) hnnz
      omega

/-- C4 (amended): for every positive budget `nnz ≥ 1`, the bounded encoders
emit at most `nnz` nonzero symbols.  (For `nnz = 0` the claim fails: the
unsigned counter wraps around, see the counterexample.) -/
theorem bounded_encoders_nonzero_budget (v : ℚ) (vi : ℤ) (nnz : ℕ) (h : 1 ≤ nnz) :
    countNonzero (to_csdnnz v nnz) ≤ nnz ∧ countNonzero (to_csdnnz_i vi nnz) ≤ nnz := by
  constructor
  · simp only [to_csdnnz]
    by_cases habs : 1 ≤ |v|
    · simp only [if_pos habs, List.nil_append]
      exact csdnnzLoop_budget ((Int.clog 2 (|v| * (3/2))).toNat + nnz + 400) v
        ((2:ℚ) ^ Int.clog 2 (|v| * (3/2))) (Int.clog 2 (|v| * (3/2))) nnz
        (zpow_pos (by norm_num) _) h
    · simp only [if_neg habs, List.singleton_append]
      rw [countNonzero_cons_zero]
      exact csdnnzLoop_budget ((0:ℤ).toNat + nnz + 400) v ((2:ℚ) ^ (0:ℤ)) 0 nnz
        (zpow_pos (by norm_num) _) h
  · rw [to_csdnnz_i]
    by_cases hv0 : vi = 0
    · rw [if_pos hv0, show countNonzero ['0'] = 0 from rfl]
      omega
    · rw [if_neg hv0]
      exact csdnnzILoop_budget _ vi nnz h

/-- Witness for C4's amended statement at `v = 57/2`, `vi = 28`, `nnz = 1`. -/
theorem bounded_encoders_nonzero_budget_witness :
    countNonzero (to_csdnnz (57/2) 1) ≤ 1 ∧ countNonzero (to_csdnnz_i 28 1) ≤ 1 :=
  bounded_encoders_nonzero_budget (57/2) 28 1 le_rfl

/-- C4 counterexample: with `max_nonzero = 0` the unsigned budget counter
wraps around instead of suppressing digits: `to_csdnnz_i 28 0 = "+00-00"`
contains two nonzero symbols, so the output is neither all-zero nor within
the budget. -/
theorem to_csdnnz_zero_budget_cex : ¬ countNonzero (to_csdnnz_i 28 0) ≤ 0 := by
  have harg : highest_power_of_two_in ((28:ℤ).natAbs * 3 / 2 % 4294967296) * 2 = 64 := rfl
  have h : to_csdnnz_i 28 0 = ['+', '0', '0', '-', '0', '0'] := by
    rw [to_csdnnz_i, if_neg (by norm_num), harg]
    rw [csdnnzILoop]
    norm_num [wrapDec]
    rw [csdnnzILoop]
    norm_num [wrapDec]
    rw [csdnnzILoop]
    norm_num [wrapDec]
    rw [csdnnzILoop]
    norm_num [wrapDec]
    rw [csdnnzILoop]
    norm_num [wrapDec]
    rw [csdnnzILoop]
    norm_num [wrapDec]
    rw [csdnnzILoop]
    norm_num
  rw [h]
  decide

/-! ## C9: the longest repeated non-overlapping substring -/

/-- The substring of `s` of length `m` starting at (0-based) index `a`. -/
def seg (s : List Char) (a m : ℕ) : List Char := (s.drop a).take m

/-- Statement that `s` contains two non-overlapping occurrences (at `a` and at `b`, with
`a + m ≤ b`) of the same length-`m` substring. -/
def NORepeat (s : List Char) (a b m : ℕ) : Prop :=
  a + m ≤ b ∧ b + m ≤ s.length ∧ seg s a m = seg s b m

theorem seg_getD (s : List Char) (a m k : ℕ) (hk : k < m) :
    (seg s a m).getD k ' ' = s.getD (a + k) ' ' := by
  rw [seg, List.getD_eq_getElem?_getD, List.getD_eq_getElem?_getD, List.getElem?_take,
    List.getElem?_drop, if_pos hk]

theorem seg_succ (s : List Char) (a m : ℕ) (h : a + m < s.length) :
    seg s a (m + 1) = seg s a m ++ [s.getD (a + m) ' '] := by
  rw [seg, seg, List.take_succ, List.getElem?_drop]
  congr 1
  rw [List.getElem?_eq_getElem h, List.getD_eq_getElem?_getD, List.getElem?_eq_getElem h]
  rfl

theorem seg_len (s : List Char) (a m : ℕ) (h : a + m ≤ s.length) :
    (seg s a m).length = m := by
  rw [seg, List.length_take, List.length_drop]
  omega

theorem lcsre_zero_left (s : List Char) (j : ℕ) : lcsre s 0 j = 0 := by
  cases j <;> rfl

theorem lcsre_le_sub (s : List Char) (i j : ℕ) : lcsre s i j ≤ j - i := by
  cases j with
  | zero => cases i <;> simp [lcsre]
  | succ j =>
    cases i with
    | zero => simp [lcsre]
    | succ i =>
      rw [lcsre]
      split
      · next h => omega
      · omega

theorem lcsre_le_left (s : List Char) (i : ℕ) : ∀ j, lcsre s i j ≤ i := by
  induction i with
  | zero => intro j; rw [lcsre_zero_left]
  | succ i ih =>
    intro j
    cases j with
    | zero => simp [lcsre]
    | succ j =>
      rw [lcsre]
      split
      · exact Nat.succ_le_succ (ih j)
      · omega

/-- Every table value attests a genuine non-overlapping repeat: the length-`L`
suffixes ending at `i` and `j` coincide, with `L ≤ j - i` and `L ≤ i`. -/
theorem lcsre_attest (s : List Char) (i : ℕ) : ∀ j, j ≤ s.length → i ≤ j →
    seg s (i - lcsre s i j) (lcsre s i j) = seg s (j - lcsre s i j) (lcsre s i j) := by
  induction i with
  | zero =>
    intro j _ _
    rw [lcsre_zero_left]
    rfl
  | succ i ih =>
    intro j hj hij
    cases j with
    | zero => omega
    | succ j =>
      rw [lcsre]
      split
      · next hcond =>
        obtain ⟨hchar, hlt⟩ := hcond
        have hLi : lcsre s i j ≤ i := lcsre_le_left s i j
        have hiltj : i < j := by omega
        have hjlen : j < s.length := by omega
        have hilen : i < s.length := by omega
        set L := lcsre s i j with hL
        have h1 : i + 1 - (L + 1) = i - L := by omega
        have h2 : j + 1 - (L + 1) = j - L := by omega
        rw [h1, h2]
        have e1 : seg s (i - L) (L + 1) = seg s (i - L) L ++ [s.getD (i - L + L) ' '] :=
          seg_succ s (i - L) L (by omega)
        have e2 : seg s (j - L) (L + 1) = seg s (j - L) L ++ [s.getD (j - L + L) ' '] :=
          seg_succ s (j - L) L (by omega)
        rw [e1, e2, show i - L + L = i by omega, show j - L + L = j by omega]
        rw [ih j (by omega) (by omega), hchar]
      · rfl

/-- Completeness of the table: any non-overlapping repeat of length `m ≥ 1`
forces a table value `≥ m` at some in-range pair whose row is at most
`a + m` (the end of the earlier occurrence). -/
theorem lcsre_complete (s : List Char) (a b m : ℕ) (hm : 1 ≤ m) (h : NORepeat s a b m) :
    ∃ i j, i ≤ a + m ∧ i < j ∧ j ≤ s.length ∧ m ≤ lcsre s i j := by
  obtain ⟨hab, hbs, hseg⟩ := h
  have hchars : ∀ k, k < m → s.getD (a + k) ' ' = s.getD (b + k) ' ' := by
    intro k hk
    rw [← seg_getD s a m k hk, ← seg_getD s b m k hk, hseg]
  have haux : ∀ k, k ≤ m →
      (∃ i j, i ≤ a + m ∧ i < j ∧ j ≤ s.length ∧ m ≤ lcsre s i j) ∨
        k ≤ lcsre s (a + k) (b + k) := by
    intro k
    induction k with
    | zero => intro _; exact .inr (Nat.zero_le _)
    | succ k ih =>
      intro hk1
      rcases ih (by omega) with hfound | hrec
      · exact .inl hfound
      by_cases hcap : lcsre s (a + k) (b + k) < b - a
      · refine .inr ?_
        have hcond : s.getD (a + k) ' ' = s.getD (b + k) ' ' ∧
            lcsre s (a + k) (b + k) < b + k - (a + k) := by
          refine ⟨hchars k (by omega), ?_⟩
          omega
        rw [show a + (k + 1) = (a + k) + 1 by omega, show b + (k + 1) = (b + k) + 1 by omega,
          lcsre, if_pos hcond]
        omega
      · refine .inl ⟨a + k, b + k, by omega, by omega, by omega, ?_⟩
        omega
  rcases haux m le_rfl with hfound | hrec
  · exact hfound
  · exact ⟨a + m, b + m, le_rfl, by omega, by omega, hrec⟩

theorem mem_lcsrePairs (n : ℕ) (p : ℕ × ℕ) :
    p ∈ lcsrePairs n ↔ 1 ≤ p.1 ∧ p.1 < p.2 ∧ p.2 ≤ n := by
  obtain ⟨i, j⟩ := p
  rw [lcsrePairs, List.mem_flatMap]
  constructor
  · rintro ⟨i0, hi0, hj0⟩
    rw [List.mem_range'_1] at hi0
    rw [List.mem_map] at hj0
    obtain ⟨j0, hj0m, hj0e⟩ := hj0
    rw [List.mem_range'_1] at hj0m
    obtain ⟨he1, he2⟩ := Prod.mk.injEq .. ▸ hj0e
    subst he1
    subst he2
    refine ⟨by omega, by omega, by omega⟩
  · rintro ⟨h1, h2, h3⟩
    refine ⟨i, ?_, ?_⟩
    · rw [List.mem_range'_1]
      omega
    · rw [List.mem_map]
      exact ⟨j, by rw [List.mem_range'_1]; omega, rfl⟩

theorem rowPairwise (i : ℕ) (l : List ℕ) :
    List.Pairwise (fun p q : ℕ × ℕ => p.1 ≤ q.1) (l.map fun j => (i, j)) := by
  rw [List.pairwise_map]
  induction l with
  | nil => exact .nil
  | cons a t ih => exact .cons (fun b _ => le_rfl) ih

theorem flatMapRows_lb (n st len : ℕ) :
    ∀ q ∈ (List.range' st len).flatMap fun i => (List.range' (i + 1) (n - i)).map fun j => (i, j),
      st ≤ q.1 := by
  intro q hq
  rw [List.mem_flatMap] at hq
  obtain ⟨i0, hi0, hq0⟩ := hq
  rw [List.mem_range'_1] at hi0
  rw [List.mem_map] at hq0
  obtain ⟨j0, _, hj0e⟩ := hq0
  subst hj0e
  exact hi0.1

theorem flatMapRows_pairwise (n : ℕ) : ∀ (len st : ℕ),
    List.Pairwise (fun p q : ℕ × ℕ => p.1 ≤ q.1)
      ((List.range' st len).flatMap fun i => (List.range' (i + 1) (n - i)).map fun j => (i, j)) := by
  intro len
  induction len with
  | zero => intro st; exact .nil
  | succ len ih =>
    intro st
    rw [List.range'_succ, List.flatMap_cons, List.pairwise_append]
    refine ⟨rowPairwise st _, ih (st + 1), ?_⟩
    intro a ha b hb
    rw [List.mem_map] at ha
    obtain ⟨j0, _, hj0e⟩ := ha
    subst hj0e
    exact le_trans (by omega) (flatMapRows_lb n (st + 1) len b hb)

theorem lcsrePairs_pairwise (n : ℕ) :
    List.Pairwise (fun p q : ℕ × ℕ => p.1 ≤ q.1) (lcsrePairs n) :=
  flatMapRows_pairwise n n 1

/-- Invariant of the `(res_length, index)` scan over the visited pairs. -/
def ScanInv (s : List Char) (done : List (ℕ × ℕ)) (st : ℕ × ℕ) : Prop :=
  (∀ p ∈ done, lcsre s p.1 p.2 ≤ st.1) ∧
  (st.1 = 0 → st.2 = 0) ∧
  (0 < st.1 → ∃ p ∈ done, p.1 = st.2 ∧ lcsre s p.1 p.2 = st.1) ∧
  (∀ p ∈ done, st.1 ≤ lcsre s p.1 p.2 → st.2 ≤ p.1) ∧
  (st.2 = 0 ∨ ∃ p ∈ done, p.1 = st.2)

theorem scanStep_inv (s : List Char) (done : List (ℕ × ℕ)) (st : ℕ × ℕ) (q : ℕ × ℕ)
    (hrow : ∀ p ∈ done, p.1 ≤ q.1) (hinv : ScanInv s done st) :
    ScanInv s (done ++ [q]) (lcsreStep s st q) := by
  obtain ⟨h1, h2, h3, h4, h5⟩ := hinv
  have hidx : st.2 ≤ q.1 := by
    rcases h5 with h5 | ⟨p, hp, hpe⟩
    · omega
    · exact hpe ▸ hrow p hp
  rw [lcsreStep]
  by_cases hlt : st.1 < lcsre s q.1 q.2
  · rw [if_pos hlt]
    have hidx2 : (if st.2 < q.1 then q.1 else st.2) = q.1 := by
      by_cases hc : st.2 < q.1
      · rw [if_pos hc]
      · rw [if_neg hc]
        omega
    rw [hidx2]
    refine ⟨?_, ?_, ?_, ?_, ?_⟩
    · intro p hp
      rcases List.mem_append.1 hp with hp | hp
      · exact le_of_lt (lt_of_le_of_lt (h1 p hp) hlt)
      · rw [List.mem_singleton.1 hp]
    · intro h0
      omega
    · intro _
      exact ⟨q, List.mem_append.2 (.inr (List.mem_singleton.2 rfl)), rfl, rfl⟩
    · intro p hp hge
      rcases List.mem_append.1 hp with hp | hp
      · exact absurd hge (by have := h1 p hp; omega)
      · rw [List.mem_singleton.1 hp]
    · exact .inr ⟨q, List.mem_append.2 (.inr (List.mem_singleton.2 rfl)), rfl⟩
  · rw [if_neg hlt]
    push_neg at hlt
    refine ⟨?_, h2, ?_, ?_, ?_⟩
    · intro p hp
      rcases List.mem_append.1 hp with hp | hp
      · exact h1 p hp
      · rw [List.mem_singleton.1 hp]
        exact hlt
    · intro h0
      obtain ⟨p, hp, hpe⟩ := h3 h0
      exact ⟨p, List.mem_append.2 (.inl hp), hpe⟩
    · intro p hp hge
      rcases List.mem_append.1 hp with hp | hp
      · exact h4 p hp hge
      · rw [List.mem_singleton.1 hp]
        exact hidx
    · rcases h5 with h5 | ⟨p, hp, hpe⟩
      · exact .inl h5
      · exact .inr ⟨p, List.mem_append.2 (.inl hp), hpe⟩

theorem scan_fold (s : List Char) (l : List (ℕ × ℕ)) :
    ∀ (done : List (ℕ × ℕ)) (st : ℕ × ℕ),
      List.Pairwise (fun p q : ℕ × ℕ => p.1 ≤ q.1) (done ++ l) →
      ScanInv s done st →
      ScanInv s (done ++ l) (l.foldl (lcsreStep s) st) := by
  induction l with
  | nil =>
    intro done st _ hinv
    simpa using hinv
  | cons q t ih =>
    intro done st hpw hinv
    have hrow : ∀ p ∈ done, p.1 ≤ q.1 := by
      intro p hp
      have := (List.pairwise_append.1 hpw).2.2 p hp q (by simp)
      exact this
    have hstep := scanStep_inv s done st q hrow hinv
    have hpw2 : List.Pairwise (fun p q : ℕ × ℕ => p.1 ≤ q.1) ((done ++ [q]) ++ t) := by
      rwa [List.append_assoc, List.singleton_append]
    have := ih (done ++ [q]) (lcsreStep s st q) hpw2 hstep
    rwa [List.append_assoc, List.singleton_append] at this

/-- The scan over all pairs establishes the invariant globally. -/
theorem scan_final (s : List Char) :
    ScanInv s (lcsrePairs s.length)
      ((lcsrePairs s.length).foldl (lcsreStep s) (0, 0)) := by
  have h0 : ScanInv s [] (0, 0) := by
    refine ⟨?_, ?_, ?_, ?_, .inl rfl⟩ <;> simp
  have := scan_fold s (lcsrePairs s.length) [] (0, 0)
    (by simpa using lcsrePairs_pairwise s.length) h0
  simpa using this

/-- C9: `longest_repeated_substring` returns a longest substring occurring
twice without overlap (the empty string exactly when none exists), and among
the maximal repeats it returns the one whose earlier copy ends first in the
left-to-right scan (equivalently, the leftmost-starting maximal repeat). -/
theorem longest_repeated_substring_correct (s : List Char) :
    (longest_repeated_substring s = [] ∧ ∀ a b m, 1 ≤ m → ¬ NORepeat s a b m) ∨
    (∃ a b, NORepeat s a b (longest_repeated_substring s).length ∧
      longest_repeated_substring s = seg s a (longest_repeated_substring s).length ∧
      1 ≤ (longest_repeated_substring s).length ∧
      (∀ a2 b2 m, NORepeat s a2 b2 m → m ≤ (longest_repeated_substring s).length) ∧
      (∀ a2 b2, NORepeat s a2 b2 (longest_repeated_substring s).length → a ≤ a2)) := by
  have hinv := scan_final s
  set st := (lcsrePairs s.length).foldl (lcsreStep s) (0, 0) with hst
  obtain ⟨inv1, inv2, inv3, inv4, inv5⟩ := hinv
  have hlrs : longest_repeated_substring s =
      if 0 < st.1 then (s.drop (st.2 - st.1)).take st.1 else [] := rfl
  have hbound : ∀ a b m, 1 ≤ m → NORepeat s a b m → m ≤ st.1 := by
    intro a b m hm hno
    obtain ⟨i, j, hi, hij, hjn, hmle⟩ := lcsre_complete s a b m hm hno
    have hi1 : 1 ≤ i := by
      by_contra hi0
      push_neg at hi0
      interval_cases i
      rw [lcsre_zero_left] at hmle
      omega
    have hmem : (i, j) ∈ lcsrePairs s.length :=
      (mem_lcsrePairs s.length (i, j)).2 ⟨hi1, hij, hjn⟩
    exact le_trans hmle (inv1 (i, j) hmem)
  by_cases hR : 0 < st.1
  swap
  · refine .inl ⟨by rw [hlrs, if_neg hR], ?_⟩
    intro a b m hm hno
    have := hbound a b m hm hno
    omega
  · obtain ⟨p, hpmem, hp1, hpL⟩ := inv3 hR
    obtain ⟨hq1, hq2, hq3⟩ := (mem_lcsrePairs s.length p).1 hpmem
    have hRI : st.1 ≤ st.2 := by
      have := lcsre_le_left s p.1 p.2
      omega
    have hRsub : st.1 ≤ p.2 - p.1 := by
      have := lcsre_le_sub s p.1 p.2
      omega
    have hIn : st.2 ≤ s.length := by omega
    have hseg : seg s (p.1 - lcsre s p.1 p.2) (lcsre s p.1 p.2) =
        seg s (p.2 - lcsre s p.1 p.2) (lcsre s p.1 p.2) :=
      lcsre_attest s p.1 p.2 hq3 (le_of_lt hq2)
    rw [hpL, hp1] at hseg
    have hlrs2 : longest_repeated_substring s = seg s (st.2 - st.1) st.1 := by
      rw [hlrs, if_pos hR]
      rfl
    have hlen : (longest_repeated_substring s).length = st.1 := by
      rw [hlrs2]
      exact seg_len s (st.2 - st.1) st.1 (by omega)
    refine .inr ⟨st.2 - st.1, p.2 - st.1, ?_, ?_, ?_, ?_, ?_⟩
    · rw [hlen]
      exact ⟨by omega, by omega, hseg⟩
    · rw [hlen, hlrs2]
    · rw [hlen]
      exact hR
    · intro a2 b2 m hno
      rw [hlen]
      by_cases hm : 1 ≤ m
      · exact hbound a2 b2 m hm hno
      · omega
    · intro a2 b2 hno
      rw [hlen] at hno
      obtain ⟨i, j, hi, hij, hjn, hmle⟩ := lcsre_complete s a2 b2 st.1 hR hno
      have hi1 : 1 ≤ i := by
        by_contra hi0
        push_neg at hi0
        interval_cases i
        rw [lcsre_zero_left] at hmle
        omega
      have hmem : (i, j) ∈ lcsrePairs s.length :=
        (mem_lcsrePairs s.length (i, j)).2 ⟨hi1, hij, hjn⟩
      have := inv4 (i, j) hmem hmle
      omega

end csd
